import Mathlib

/-
Verification development for the OS process scheduling simulation.
The Python sources (src/models/process.py, src/models/scheduler.py,
src/algorithms/fcfs.py, round_robin.py, priority.py, multilevel.py,
src/utils/metrics.py) are shallowly embedded below: object identity is
modelled by the index of a process in the engine list, the mutable
object state by explicit record updates, and the simulation loop by a
fuel-indexed step function (each fuel step is one iteration of the
Python while loop; once the loop condition fails the step is the
identity, so a run with ample fuel reaches the final state).
-/

namespace OSSim

/-- Process states, from process.py (class constants NEW..TERMINATED). -/
inductive PState where
  | NEW
  | READY
  | RUNNING
  | WAITING
  | TERMINATED
deriving DecidableEq, Repr

/-- Process, from process.py: identity, static parameters and mutable
simulation state.  Times are naturals (the clock starts at 0 and only
grows); priority is an integer; response_time is an integer since the
Python code computes current_time - arrival_time. -/
structure Process where
  pid : Nat
  name : String
  arrival_time : Nat
  burst_time : Nat
  priority : Int
  remaining_time : Nat
  start_time : Option Nat
  finish_time : Option Nat
  waiting_time : Nat
  response_time : Option Int
  state : PState
  execution_history : List (Nat × Nat)
deriving DecidableEq, Repr

/-- Constructor, from Process.__init__. -/
def mkProcess (pid : Nat) (name : String) (arrival_time burst_time : Nat)
    (priority : Int) : Process :=
  { pid := pid, name := name, arrival_time := arrival_time,
    burst_time := burst_time, priority := priority,
    remaining_time := burst_time, start_time := none, finish_time := none,
    waiting_time := 0, response_time := none, state := PState.NEW,
    execution_history := [] }

/-- From Process.execute: run for a quantum, returning the updated
process and the actual time executed. -/
def Process.execute (p : Process) (current_time time_quantum : Nat) :
    Process × Nat :=
  let p1 := if p.state = PState.NEW then { p with state := PState.READY } else p
  let p2 := if p1.state ≠ PState.RUNNING then { p1 with state := PState.RUNNING } else p1
  let p3 := if p2.start_time = none then
      { p2 with start_time := some current_time,
                response_time := some ((current_time : Int) - (p2.arrival_time : Int)) }
    else p2
  let actual_execution := min time_quantum p3.remaining_time
  let p4 := { p3 with
    remaining_time := p3.remaining_time - actual_execution,
    execution_history := p3.execution_history ++ [(current_time, current_time + actual_execution)] }
  let p5 := if p4.remaining_time ≤ 0 then
      { p4 with state := PState.TERMINATED,
                finish_time := some (current_time + actual_execution) }
    else p4
  (p5, actual_execution)

/-- From Process.wait: increment waiting time, but only in state READY
or WAITING. -/
def Process.wait (p : Process) (t : Nat) : Process :=
  if p.state = PState.READY ∨ p.state = PState.WAITING then
    { p with waiting_time := p.waiting_time + t }
  else p

/-- From Process.get_turnaround_time. -/
def Process.get_turnaround_time (p : Process) : Option Int :=
  match p.finish_time with
  | some f => some ((f : Int) - (p.arrival_time : Int))
  | none => none

/-- From Process.get_waiting_time. -/
def Process.get_waiting_time (p : Process) : Nat := p.waiting_time

/-- From Process.get_response_time. -/
def Process.get_response_time (p : Process) : Option Int := p.response_time

/-- From Process.is_arrived. -/
def Process.is_arrived (p : Process) (current_time : Nat) : Bool :=
  p.arrival_time ≤ current_time

/-- From Process.is_terminated. -/
def Process.is_terminated (p : Process) : Bool :=
  p.state = PState.TERMINATED

/-- From Process.reset. -/
def Process.reset (p : Process) : Process :=
  { p with remaining_time := p.burst_time, start_time := none,
           finish_time := none, waiting_time := 0, response_time := none,
           state := PState.NEW, execution_history := [] }

/-- Execution log subject, from scheduler.py: a pid, or the sentinel
strings IDLE and CS. -/
inductive LogSubject where
  | proc (pid : Nat)
  | idle
  | cs
deriving DecidableEq, Repr

/-- Engine state, from Scheduler.__init__ (scheduler.py).  Processes are
referred to by their index in the list, which models Python object
identity; pstate is the private state of the scheduling policy. -/
structure Engine (σ : Type) where
  processes : List Process
  current_time : Nat
  time_slice : Nat
  context_switch_overhead : Nat
  current_process : Option Nat
  completed_processes : List Nat
  execution_log : List (LogSubject × Nat × Nat)
  pstate : σ
deriving Repr

/-- Default process used to total list indexing (never reached on the
indices the engine actually uses). -/
def procD : Process := mkProcess 0 "" 0 0 0

/-- A policy: given its private state, the currently running process,
the process list, the ready indices and the current time slice, return
the chosen index, the new private state and the new time slice.  This
models get_next_process together with its side effects on the policy
object and on self.time_slice. -/
def Select (σ : Type) : Type :=
  σ → Option Nat → List Process → List Nat → Nat → Option Nat × σ × Nat

/-- Ready set: indices of processes arrived and not terminated, in list
order (scheduler.py line 63). -/
def readyIdx {σ : Type} (s : Engine σ) : List Nat :=
  (List.range s.processes.length).filter (fun i =>
    (s.processes.getD i procD).is_arrived s.current_time &&
    ! (s.processes.getD i procD).is_terminated)

/-- Next arrival among non-terminated processes strictly after the
clock (scheduler.py line 68), none when no such process exists. -/
def nextArrival {σ : Type} (s : Engine σ) : Option Nat :=
  match (s.processes.filter (fun p =>
      ! p.is_terminated && decide (s.current_time < p.arrival_time))).map
      (fun p => p.arrival_time) with
  | [] => none
  | a :: rest => some (rest.foldl min a)

/-- Waiting-time update loop of scheduler.py (lines 92 and 112): every
ready process other than the dispatched one waits for d. -/
def applyWaits (ps : List Process) (ready : List Nat) (j : Nat) (d : Nat) :
    List Process :=
  ready.foldl (fun acc i =>
    if i ≠ j then acc.set i ((acc.getD i procD).wait d) else acc) ps

/-- Loop guard on the optional time budget (scheduler.py line 60). -/
def underBudget (until_time : Option Nat) (t : Nat) : Bool :=
  match until_time with
  | none => true
  | some u => decide (t < u)

/-- One iteration of the while loop of Scheduler.run (scheduler.py lines
59 to 119).  When the loop condition fails, or the break on no future
arrival fires, the state is returned unchanged. -/
def step {σ : Type} (select : Select σ) (until_time : Option Nat)
    (s : Engine σ) : Engine σ :=
  if decide (s.completed_processes.length < s.processes.length) &&
      underBudget until_time s.current_time then
    let ready := readyIdx s
    if ready.isEmpty then
      match nextArrival s with
      | none => s
      | some na =>
        let s1 := if s.current_time < na then
            { s with execution_log :=
                s.execution_log ++ [(LogSubject.idle, s.current_time, na)] }
          else s
        { s1 with current_time := na }
    else
      match select s.pstate s.current_process s.processes ready s.time_slice with
      | (none, ps2, ts2) => { s with pstate := ps2, time_slice := ts2 }
      | (some j, ps2, ts2) =>
        let s1 : Engine σ := { s with pstate := ps2, time_slice := ts2 }
        let s2 :=
          if s1.context_switch_overhead > 0 ∧ s1.current_process ≠ some j ∧
              s1.current_process ≠ none then
            { s1 with
              execution_log := s1.execution_log ++
                [(LogSubject.cs, s1.current_time,
                  s1.current_time + s1.context_switch_overhead)],
              processes := applyWaits s1.processes ready j s1.context_switch_overhead,
              current_time := s1.current_time + s1.context_switch_overhead }
          else s1
        let s3 := { s2 with current_process := some j }
        let pj := s3.processes.getD j procD
        let res := pj.execute s3.current_time s3.time_slice
        let s4 := { s3 with
          processes := s3.processes.set j res.1,
          execution_log := s3.execution_log ++
            [(LogSubject.proc pj.pid, s3.current_time, s3.current_time + res.2)],
          current_time := s3.current_time + res.2 }
        let s5 := { s4 with processes := applyWaits s4.processes ready j res.2 }
        if res.1.is_terminated then
          { s5 with completed_processes := s5.completed_processes ++ [j],
                    current_process := none }
        else s5
  else s

/-- Iterate the loop body a given number of times. -/
def runSteps {σ : Type} (select : Select σ) (until_time : Option Nat)
    (s : Engine σ) : Nat → Engine σ
  | 0 => s
  | Nat.succ n => step select until_time (runSteps select until_time s n)

/-- Static description of one workload entry (the arguments passed to
Process.__init__). -/
structure ProcSpec where
  pid : Nat
  name : String
  arrival_time : Nat
  burst_time : Nat
  priority : Int
deriving DecidableEq, Repr

/-- Fresh engine for a workload: this is the state after
Scheduler.reset at the top of Scheduler.run.  slice0 is the initial
time_slice (1 for the base class, the quantum for Round Robin). -/
def mkEngine {σ : Type} (w : List ProcSpec) (overhead : Nat) (slice0 : Nat)
    (p0 : σ) : Engine σ :=
  { processes := w.map (fun c =>
      mkProcess c.pid c.name c.arrival_time c.burst_time c.priority),
    current_time := 0, time_slice := slice0,
    context_switch_overhead := overhead, current_process := none,
    completed_processes := [], execution_log := [], pstate := p0 }

/-- Lexicographic strict order on pairs, as Python compares key tuples. -/
abbrev key2LtP (a b : Nat × Nat) : Prop :=
  a.1 < b.1 ∨ (a.1 = b.1 ∧ a.2 < b.2)

/-- Lexicographic strict order on triples, as Python compares key
tuples of the priority policy. -/
abbrev key3LtP (a b : Int × Int × Nat) : Prop :=
  a.1 < b.1 ∨ (a.1 = b.1 ∧ (a.2.1 < b.2.1 ∨ (a.2.1 = b.2.1 ∧ a.2.2 < b.2.2)))

/-- Python min over indices with a key function: keeps the first
element whose key is minimal (replace only on strictly smaller key). -/
def pyMinBy (key : Nat → Nat × Nat) (l : List Nat) : Option Nat :=
  l.foldl (fun acc i =>
    match acc with
    | none => some i
    | some j => if key2LtP (key i) (key j) then some i else some j) none

/-- Python max over indices with a key function: keeps the first
element whose key is maximal (replace only on strictly greater key). -/
def pyMaxBy (key : Nat → Int × Int × Nat) (l : List Nat) : Option Nat :=
  l.foldl (fun acc i =>
    match acc with
    | none => some i
    | some j => if key3LtP (key j) (key i) then some i else some j) none

/-- Key (arrival_time, pid) used by fcfs.py line 26 and by the
fallback selections. -/
def keyAP (p : Process) : Nat × Nat := (p.arrival_time, p.pid)

/-- FCFS policy, from fcfs.py: min of the ready list by
(arrival_time, pid); no private state, time_slice untouched. -/
def fcfsSelect : Select Unit := fun u cur ps ready ts =>
  let _ := cur
  (pyMinBy (fun i => keyAP (ps.getD i procD)) ready, u, ts)

/-- Key (priority, -arrival_time, pid) used by priority.py line 37. -/
def prioKey (p : Process) : Int × Int × Nat :=
  (p.priority, -(p.arrival_time : Int), p.pid)

/-- Priority policy, from priority.py: keep the current process when
non-preemptive and it is still ready and unfinished, otherwise the max
of the ready list by (priority, -arrival_time, pid). -/
def prioritySelect (preemptive : Bool) : Select Unit := fun u cur ps ready ts =>
  match cur with
  | some c =>
    if !preemptive && decide (c ∈ ready) && ! (ps.getD c procD).is_terminated then
      (some c, u, ts)
    else
      (pyMaxBy (fun i => prioKey (ps.getD i procD)) ready, u, ts)
  | none => (pyMaxBy (fun i => prioKey (ps.getD i procD)) ready, u, ts)

/-- Arrival phase of RoundRobinScheduler.get_next_process (round_robin.py
lines 44 to 47): current_pids is the pid set of the queue taken before
the loop, the membership test against the queue itself is live. -/
def rrEnqueue (ps : List Process) (queue ready : List Nat) : List Nat :=
  let current_pids := queue.map (fun i => (ps.getD i procD).pid)
  ready.foldl (fun q i =>
    if ! decide ((ps.getD i procD).pid ∈ current_pids) && ! decide (i ∈ q) then
      q ++ [i]
    else q) queue

/-- Requeue phase (round_robin.py lines 50 to 57): an unfinished, still
ready current process is removed from the queue and appended at the
tail.  List.erase removes the first occurrence, as deque.remove does,
and leaves the list unchanged when absent, as the try-except does. -/
def rrRequeue (ps : List Process) (cur : Option Nat) (ready queue : List Nat) :
    List Nat :=
  match cur with
  | some c =>
    if decide (c ∈ ready) && ! (ps.getD c procD).is_terminated then
      queue.erase c ++ [c]
    else queue
  | none => queue

/-- Stable ascending insertion by key (arrival_time, pid), used to model
the Python sorted call in the Round Robin inconsistency fallback. -/
def insertByKey (ps : List Process) (i : Nat) : List Nat → List Nat
  | [] => [i]
  | j :: rest =>
    if key2LtP (keyAP (ps.getD j procD)) (keyAP (ps.getD i procD)) then
      j :: insertByKey ps i rest
    else i :: j :: rest

/-- Stable sort by key (arrival_time, pid), as sorted(ready, key) in
round_robin.py line 62. -/
def sortByKey (ps : List Process) : List Nat → List Nat
  | [] => []
  | i :: rest => insertByKey ps i (sortByKey ps rest)

/-- Fallback phase (round_robin.py lines 60 to 62). -/
def rrFallback (ps : List Process) (ready queue : List Nat) : List Nat :=
  if queue.isEmpty && ! ready.isEmpty then sortByKey ps ready else queue

/-- Round Robin policy, from round_robin.py: private state is the FIFO
ready queue of process indices; time_slice stays at the quantum the
scheduler was constructed with. -/
def rrSelect : Select (List Nat) := fun queue cur ps ready ts =>
  let q1 := rrEnqueue ps queue ready
  let q2 := rrRequeue ps cur ready q1
  let q3 := rrFallback ps ready q2
  match q3 with
  | [] => (none, [], ts)
  | h :: t => (some h, t, ts)

/-- Tier algorithm of a multilevel queue (multilevel.py): Round Robin
with a time quantum, or FCFS for the lowest tier. -/
inductive MLAlg where
  | rr (time_quantum : Nat)
  | fcfs
deriving DecidableEq, Repr

/-- One tier of the multilevel scheduler: its algorithm and its FIFO
queue of process indices. -/
structure MLQueue where
  alg : MLAlg
  queue : List Nat
deriving DecidableEq, Repr

/-- Default tier for total indexing. -/
def mlqD : MLQueue := { alg := MLAlg.fcfs, queue := [] }

/-- Tier list built by MultilevelQueueScheduler.__init__: one high RR
tier with quantum 2, queue_count - 2 middle RR tiers with quantum 4,
and a lowest FCFS tier. -/
def mkQueues (queue_count : Nat) : List MLQueue :=
  { alg := MLAlg.rr 2, queue := [] } ::
    (List.replicate (queue_count - 2) { alg := MLAlg.rr 4, queue := ([] : List Nat) } ++
      [{ alg := MLAlg.fcfs, queue := ([] : List Nat) }])

/-- From MultilevelQueueScheduler.get_queue_for_process:
min(max(0, queue_count - 1 - priority), queue_count - 1), computed over
integers; for queue_count at least 1 the result is non-negative and
toNat is exact. -/
def get_queue_for_process (queue_count : Nat) (p : Process) : Nat :=
  (min (max 0 ((queue_count : Int) - 1 - p.priority)) ((queue_count : Int) - 1)).toNat

/-- True when the index sits in some tier queue (multilevel.py lines
63 to 68). -/
def mlInAnyQueue (queues : List MLQueue) (i : Nat) : Bool :=
  queues.any (fun q => decide (i ∈ q.queue))

/-- Arrival phase of multilevel.py (lines 62 to 73): a ready process in
no tier queue and distinct from the current process is appended to the
tail of its tier. -/
def mlEnqueueArrivals (qc : Nat) (ps : List Process) (cur : Option Nat)
    (ready : List Nat) (queues : List MLQueue) : List MLQueue :=
  ready.foldl (fun qs i =>
    if ! mlInAnyQueue qs i && decide (cur ≠ some i) then
      let k := get_queue_for_process qc (ps.getD i procD)
      qs.set k { alg := (qs.getD k mlqD).alg, queue := (qs.getD k mlqD).queue ++ [i] }
    else qs) queues

/-- One iteration of the arrival fold of multilevel.py, named so the
fold can be reasoned about step by step; definitionally equal to the
lambda inside mlEnqueueArrivals. -/
def mlEnqOne (qc : Nat) (ps : List Process) (cur : Option Nat)
    (qs : List MLQueue) (i : Nat) : List MLQueue :=
  if ! mlInAnyQueue qs i && decide (cur ≠ some i) then
    let k := get_queue_for_process qc (ps.getD i procD)
    qs.set k { alg := (qs.getD k mlqD).alg, queue := (qs.getD k mlqD).queue ++ [i] }
  else qs

/-- Current-process phase of multilevel.py (lines 76 to 91): when the
unfinished current process belongs to an RR tier it is removed from
every tier queue and appended to the tail of its own tier; for an FCFS
tier nothing happens. -/
def mlHandleCurrent (qc : Nat) (ps : List Process) (cur : Option Nat)
    (ready : List Nat) (queues : List MLQueue) : List MLQueue :=
  match cur with
  | some c =>
    if decide (c ∈ ready) && ! (ps.getD c procD).is_terminated then
      let k := get_queue_for_process qc (ps.getD c procD)
      match (queues.getD k mlqD).alg with
      | MLAlg.rr _ =>
        let removed := queues.map (fun q => { q with queue := q.queue.erase c })
        removed.set k { alg := (removed.getD k mlqD).alg,
                        queue := (removed.getD k mlqD).queue ++ [c] }
      | MLAlg.fcfs => queues
    else queues
  | none => queues

/-- Selection scan of multilevel.py (lines 94 to 105): pop the head of
the first non-empty tier; an RR tier also sets the time slice to its
quantum, an FCFS tier leaves the time slice unchanged. -/
def mlScan : List MLQueue → Nat → Option (Nat × List MLQueue × Nat)
  | [], _ => none
  | q :: rest, ts =>
    match q.queue with
    | h :: t =>
      match q.alg with
      | MLAlg.fcfs => some (h, { alg := q.alg, queue := t } :: rest, ts)
      | MLAlg.rr tq => some (h, { alg := q.alg, queue := t } :: rest, tq)
    | [] =>
      match mlScan rest ts with
      | some (h, rest2, ts2) => some (h, q :: rest2, ts2)
      | none => none

/-- Multilevel Queue policy, from multilevel.py: private state is the
tier list; the inconsistency fallback (lines 108 to 110) picks the
ready process with minimal (arrival_time, pid). -/
def mlSelect (qc : Nat) : Select (List MLQueue) := fun queues cur ps ready ts =>
  let q1 := mlEnqueueArrivals qc ps cur ready queues
  let q2 := mlHandleCurrent qc ps cur ready q1
  match mlScan q2 ts with
  | some (h, q3, ts2) => (some h, q3, ts2)
  | none =>
    if ! ready.isEmpty then
      (pyMinBy (fun i => keyAP (ps.getD i procD)) ready, q2, ts)
    else (none, q2, ts)

/-- Metrics record returned by PerformanceMetrics.calculate_metrics
(metrics.py).  Averages and rates are rationals since Python divides
exactly here. -/
structure SchedMetrics where
  scheduler : String
  avg_waiting_time : Rat
  avg_turnaround_time : Rat
  avg_response_time : Rat
  throughput : Rat
  cpu_utilization : Rat
deriving DecidableEq, Repr

/-- Sum of the durations of the execution history intervals of a
process, as metrics.py line 38 computes per process. -/
def execDurations (p : Process) : Nat :=
  (p.execution_history.map (fun e => e.2 - e.1)).sum

/-- From PerformanceMetrics.calculate_metrics (metrics.py lines 22 to
55).  An empty completed list yields the all-zero record before any
division.  For completed processes finish_time and response_time are
set, so the getD defaults are never reached on engine outputs. -/
def calculate_metrics (completed : List Process) (total_time : Nat)
    (scheduler_name : String) : SchedMetrics :=
  if completed.isEmpty then
    { scheduler := scheduler_name, avg_waiting_time := 0,
      avg_turnaround_time := 0, avg_response_time := 0, throughput := 0,
      cpu_utilization := 0 }
  else
    let n : Rat := (completed.length : Rat)
    let waiting_times := completed.map (fun p => ((p.get_waiting_time : Int) : Rat))
    let turnaround_times := completed.map (fun p => ((p.get_turnaround_time.getD 0 : Int) : Rat))
    let response_times := completed.map (fun p => ((p.get_response_time.getD 0 : Int) : Rat))
    let execution_times : Rat := ((completed.map execDurations).sum : Rat)
    let avg_waiting_time := waiting_times.sum / n
    let avg_turnaround_time := turnaround_times.sum / n
    let avg_response_time := response_times.sum / n
    let throughput := n / (total_time : Rat)
    let cpu_utilization :=
      if 0 < total_time then execution_times / (total_time : Rat) * 100 else 0
    { scheduler := scheduler_name, avg_waiting_time := avg_waiting_time,
      avg_turnaround_time := avg_turnaround_time,
      avg_response_time := avg_response_time, throughput := throughput,
      cpu_utilization := cpu_utilization }

/-- Core fields of a process untouched by Process.wait. -/
def sameCore (p q : Process) : Prop :=
  q.start_time = p.start_time ∧ q.response_time = p.response_time ∧
  q.finish_time = p.finish_time ∧ q.state = p.state

/-- Write-once stability of start_time, response_time, finish_time. -/
def fieldsPreserved (p q : Process) : Prop :=
  (∀ v, p.start_time = some v → q.start_time = some v) ∧
  (∀ v, p.response_time = some v → q.response_time = some v) ∧
  (∀ v, p.finish_time = some v → q.finish_time = some v)

/-- Well-formedness maintained by the engine: a set finish_time means
the process is terminated, and response_time is set together with
start_time. -/
def procWF (p : Process) : Prop :=
  (p.finish_time ≠ none → p.state = PState.TERMINATED) ∧
  (p.start_time = none → p.response_time = none)

/-- Under the wait-state gate, a NEW process has accrued no waiting
time. -/
def Qnew (p : Process) : Prop := p.state = PState.NEW → p.waiting_time = 0

/-- Engine-wide process well-formedness. -/
def engWF {σ : Type} (s : Engine σ) : Prop :=
  ∀ i, procWF (s.processes.getD i procD)

/-- Chain predicate on an execution log: logChain a l b holds when the
entries of l tile the half-open interval from a to b, each entry
starting exactly where the previous one ended, with non-negative
duration.  This captures chronological order, non-overlap and gap-free
coverage at once. -/
def logChain : Nat → List (LogSubject × Nat × Nat) → Nat → Prop
  | t, [], t2 => t = t2
  | t, e :: rest, t2 => e.2.1 = t ∧ t ≤ e.2.2 ∧ logChain e.2.2 rest t2

/-- Name erasure on a process: the engine and the policies never read
the display name, which is what the determinism claim exploits. -/
def eraseName (p : Process) : Process := { p with name := "" }

/-- Name erasure on a workload entry. -/
def stripName (c : ProcSpec) : ProcSpec := { c with name := "" }

/-- Name erasure on an engine state. -/
def eraseE {σ : Type} (s : Engine σ) : Engine σ :=
  { s with processes := s.processes.map eraseName }

/-- Workload of the concrete scenario of the spec: P1(arrival 0, burst
5), P2(arrival 1, burst 3), P3(arrival 2, burst 1). -/
def w3 : List ProcSpec :=
  [⟨1, "P1", 0, 5, 0⟩, ⟨2, "P2", 1, 3, 0⟩, ⟨3, "P3", 2, 1, 0⟩]

/-- The FCFS run on that workload (12 steps of fuel are more than the 9
loop iterations the run needs, and the step function is the identity
once the run has completed). -/
def fcfsRun3 : Engine Unit := runSteps fcfsSelect none (mkEngine w3 0 1 ()) 12

/-- Two ready processes tied on priority and arrival, distinguished
only by pid. -/
def c5ps : List Process := [mkProcess 1 "X" 0 3 5, mkProcess 2 "Y" 0 3 5]

/-- Engine over the Multilevel Queue policy with one process of
priority 0, which the tier map sends to the lowest, FCFS tier. -/
def mlEng1 : Engine (List MLQueue) := mkEngine [⟨1, "A", 0, 5, 0⟩] 0 1 (mkQueues 3)

/-- Concrete tier list with a process resident in the top RR tier. -/
def c4queues : List MLQueue :=
  [{ alg := MLAlg.rr 2, queue := [4] }, { alg := MLAlg.rr 4, queue := [] },
   { alg := MLAlg.fcfs, queue := [] }]

/-- Workload that forces two simultaneous new arrivals whose workload
order disagrees with their arrival order: A runs its first quantum of
4, during which both B (arrival 3) and C (arrival 2) become ready. -/
def rrW : List ProcSpec := [⟨1, "A", 0, 5, 0⟩, ⟨2, "B", 3, 2, 0⟩, ⟨3, "C", 2, 2, 0⟩]

/-- Engine over the Round Robin policy with quantum 4 on that
workload. -/
def rrEng : Engine (List Nat) := mkEngine rrW 0 4 []

/-- The selection call the engine makes at a state (scheduler.py line
84 with its arguments). -/
def selAt {σ : Type} (select : Select σ) (s : Engine σ) : Option Nat × σ × Nat :=
  select s.pstate s.current_process s.processes (readyIdx s) s.time_slice

/-- The policy picks a member of the ready set at this state. -/
def SelSoundAt {σ : Type} (select : Select σ) (s : Engine σ) : Prop :=
  ∀ j, (selAt select s).1 = some j → j ∈ readyIdx s

/-- Arrival time and state of a process relative to a base process;
stable under Process.wait. -/
def arrState (a p : Process) : Prop :=
  p.arrival_time = a.arrival_time ∧ p.state = a.state

/-- Reachable-state invariant of the Round Robin policy: the internal
queue is duplicate-free and every queued index is ready (arrived, not
terminated, in range). -/
def RRInv (s : Engine (List Nat)) : Prop :=
  s.pstate.Nodup ∧ ∀ i ∈ s.pstate, i ∈ readyIdx s

/-- All tier queues of a multilevel state, flattened in tier order. -/
def flatML (qs : List MLQueue) : List Nat :=
  qs.foldr (fun q acc => q.queue ++ acc) []

/-- Reachable-state invariant of the Multilevel Queue policy: no index
occurs twice across the tier queues and every resident index is
ready. -/
def MLInv (s : Engine (List MLQueue)) : Prop :=
  (flatML s.pstate).Nodup ∧ ∀ i ∈ flatML s.pstate, i ∈ readyIdx s

lemma key3LtP_irrefl (a : Int × Int × Nat) : ¬ key3LtP a a := by
  obtain ⟨a1, a2, a3⟩ := a
  simp only [key3LtP]
  omega

lemma key3LtP_trans (a b c : Int × Int × Nat) (h1 : key3LtP a b) (h2 : key3LtP b c) :
    key3LtP a c := by
  obtain ⟨a1, a2, a3⟩ := a
  obtain ⟨b1, b2, b3⟩ := b
  obtain ⟨c1, c2, c3⟩ := c
  simp only [key3LtP] at *
  omega

lemma key3_le_trans (a b c : Int × Int × Nat) (h1 : ¬ key3LtP b a)
    (h2 : ¬ key3LtP c b) : ¬ key3LtP c a := by
  obtain ⟨a1, a2, a3⟩ := a
  obtain ⟨b1, b2, b3⟩ := b
  obtain ⟨c1, c2, c3⟩ := c
  simp only [key3LtP] at *
  omega

lemma key3LtP_of_ne (a b : Int × Int × Nat) (hne : a ≠ b) (h : ¬ key3LtP a b) :
    key3LtP b a := by
  obtain ⟨a1, a2, a3⟩ := a
  obtain ⟨b1, b2, b3⟩ := b
  simp only [ne_eq, Prod.mk.injEq] at hne
  simp only [key3LtP] at *
  omega

lemma pyMaxBy_go (key : Nat → Int × Int × Nat) :
    ∀ (l : List Nat) (j : Nat), ∃ m,
      l.foldl (fun acc i =>
        match acc with
        | none => some i
        | some j2 => if key3LtP (key j2) (key i) then some i else some j2) (some j) = some m ∧
      (m = j ∨ m ∈ l) ∧ ¬ key3LtP (key m) (key j) ∧
      ∀ x ∈ l, ¬ key3LtP (key m) (key x) := by
  intro l
  induction l with
  | nil =>
    intro j
    exact ⟨j, rfl, Or.inl rfl, key3LtP_irrefl (key j), by simp⟩
  | cons r rest ih =>
    intro j
    by_cases hlt : key3LtP (key j) (key r)
    · obtain ⟨m, hm, hmem, hnr, hall⟩ := ih r
      refine ⟨m, ?_, ?_, ?_, ?_⟩
      · simpa [List.foldl, hlt] using hm
      · rcases hmem with h | h
        · exact Or.inr (List.mem_cons.mpr (Or.inl h))
        · exact Or.inr (List.mem_cons.mpr (Or.inr h))
      · intro hc
        exact hnr (key3LtP_trans _ _ _ hc hlt)
      · intro x hx
        rcases List.mem_cons.mp hx with h | h
        · exact h ▸ hnr
        · exact hall x h
    · obtain ⟨m, hm, hmem, hnr, hall⟩ := ih j
      refine ⟨m, ?_, ?_, ?_, ?_⟩
      · simpa [List.foldl, hlt] using hm
      · rcases hmem with h | h
        · exact Or.inl h
        · exact Or.inr (List.mem_cons.mpr (Or.inr h))
      · exact hnr
      · intro x hx
        rcases List.mem_cons.mp hx with h | h
        · exact h ▸ key3_le_trans (key r) (key j) (key m) hlt hnr
        · exact hall x h

lemma pyMaxBy_spec (key : Nat → Int × Int × Nat) (l : List Nat) (hl : l ≠ []) :
    ∃ m, pyMaxBy key l = some m ∧ m ∈ l ∧
      ∀ x ∈ l, ¬ key3LtP (key m) (key x) := by
  match l with
  | [] => exact absurd rfl hl
  | h :: t =>
    obtain ⟨m, hm, hmem, hnr, hall⟩ := pyMaxBy_go key t h
    refine ⟨m, by simpa [pyMaxBy, List.foldl] using hm, ?_, ?_⟩
    · rcases hmem with h2 | h2
      · exact List.mem_cons.mpr (Or.inl h2)
      · exact List.mem_cons.mpr (Or.inr h2)
    · intro x hx
      rcases List.mem_cons.mp hx with h2 | h2
      · exact h2 ▸ hnr
      · exact hall x h2

lemma pyMinBy_go_mem (key : Nat → Nat × Nat) :
    ∀ (l : List Nat) (j m : Nat),
      l.foldl (fun acc i =>
        match acc with
        | none => some i
        | some j2 => if key2LtP (key i) (key j2) then some i else some j2) (some j) = some m →
      m = j ∨ m ∈ l := by
  intro l
  induction l with
  | nil => intro j m hm; exact Or.inl (by simpa using hm.symm)
  | cons r rest ih =>
    intro j m hm
    by_cases hlt : key2LtP (key r) (key j)
    · rcases ih r m (by simpa [List.foldl, hlt] using hm) with h | h
      · exact Or.inr (List.mem_cons.mpr (Or.inl h))
      · exact Or.inr (List.mem_cons.mpr (Or.inr h))
    · rcases ih j m (by simpa [List.foldl, hlt] using hm) with h | h
      · exact Or.inl h
      · exact Or.inr (List.mem_cons.mpr (Or.inr h))

lemma pyMinBy_mem (key : Nat → Nat × Nat) (l : List Nat) (m : Nat)
    (h : pyMinBy key l = some m) : m ∈ l := by
  match l with
  | [] => exact absurd h (by simp [pyMinBy])
  | a :: t =>
    rcases pyMinBy_go_mem key t a m (by simpa [pyMinBy, List.foldl] using h) with h2 | h2
    · exact List.mem_cons.mpr (Or.inl h2)
    · exact List.mem_cons.mpr (Or.inr h2)

lemma getD_set_cases (l : List Process) (n i : Nat) (v : Process) :
    (l.set n v).getD i procD = l.getD i procD ∨
    ((l.set n v).getD i procD = v ∧ i = n) := by
  by_cases hn : n < l.length
  · by_cases hi : i = n
    · subst hi
      right
      refine ⟨?_, rfl⟩
      rw [List.getD_eq_getElem?_getD, List.getElem?_set_eq_of_lt v hn]
      rfl
    · left
      rw [List.getD_eq_getElem?_getD, List.getD_eq_getElem?_getD,
        List.getElem?_set_ne (fun he => hi he.symm)]
  · left
    rw [List.set_eq_of_length_le (Nat.le_of_not_lt hn)]

lemma wait_start (p : Process) (d : Nat) : (p.wait d).start_time = p.start_time := by
  unfold Process.wait
  split <;> rfl

lemma wait_response (p : Process) (d : Nat) :
    (p.wait d).response_time = p.response_time := by
  unfold Process.wait
  split <;> rfl

lemma wait_finish (p : Process) (d : Nat) : (p.wait d).finish_time = p.finish_time := by
  unfold Process.wait
  split <;> rfl

lemma wait_state (p : Process) (d : Nat) : (p.wait d).state = p.state := by
  unfold Process.wait
  split <;> rfl

lemma wait_new_fix (p : Process) (d : Nat) (h : p.state = PState.NEW) :
    p.wait d = p := by
  unfold Process.wait
  rw [if_neg]
  rw [h]
  intro hc
  rcases hc with hc | hc <;> exact PState.noConfusion hc


lemma sameCore_refl (p : Process) : sameCore p p := ⟨rfl, rfl, rfl, rfl⟩

lemma sameCore_trans (p q r : Process) (h1 : sameCore p q) (h2 : sameCore q r) :
    sameCore p r :=
  ⟨h2.1.trans h1.1, h2.2.1.trans h1.2.1, h2.2.2.1.trans h1.2.2.1,
   h2.2.2.2.trans h1.2.2.2⟩

lemma sameCore_wait (p q : Process) (d : Nat) (h : sameCore p q) :
    sameCore p (q.wait d) :=
  sameCore_trans p q (q.wait d)
    h ⟨wait_start q d, wait_response q d, wait_finish q d, wait_state q d⟩


lemma fieldsPreserved_refl (p : Process) : fieldsPreserved p p :=
  ⟨fun _ h => h, fun _ h => h, fun _ h => h⟩

lemma fieldsPreserved_trans (p q r : Process) (h1 : fieldsPreserved p q)
    (h2 : fieldsPreserved q r) : fieldsPreserved p r :=
  ⟨fun v h => h2.1 v (h1.1 v h), fun v h => h2.2.1 v (h1.2.1 v h),
   fun v h => h2.2.2 v (h1.2.2 v h)⟩

lemma sameCore_fieldsPreserved (p q : Process) (h : sameCore p q) :
    fieldsPreserved p q :=
  ⟨fun v hv => h.1.trans hv, fun v hv => h.2.1.trans hv, fun v hv => h.2.2.1.trans hv⟩


lemma procWF_of_sameCore (p q : Process) (hwf : procWF p) (h : sameCore p q) :
    procWF q :=
  ⟨fun hf => h.2.2.2.trans (hwf.1 (fun hn => hf (h.2.2.1.trans hn))),
   fun hs => h.2.1.trans (hwf.2 (h.1.symm.trans hs))⟩

/-- Pointwise relation preservation through the waiting-time update
loop: any relation to a base process stable under Process.wait is
stable under applyWaits, at every index. -/
lemma applyWaits_rel (R : Process → Process → Prop)
    (hW : ∀ (a p : Process) (d2 : Nat), R a p → R a (p.wait d2)) :
    ∀ (ready : List Nat) (ps : List Process) (j d : Nat) (base : Nat → Process),
      (∀ i, R (base i) (ps.getD i procD)) →
      ∀ i, R (base i) ((applyWaits ps ready j d).getD i procD) := by
  intro ready
  induction ready with
  | nil =>
    intro ps j d base h i
    simpa [applyWaits] using h i
  | cons r rest ih =>
    intro ps j d base h i
    have hstep : applyWaits ps (r :: rest) j d =
        applyWaits (if r ≠ j then ps.set r ((ps.getD r procD).wait d) else ps) rest j d := by
      simp only [applyWaits, List.foldl]
    rw [hstep]
    apply ih
    intro k
    by_cases hrj : r ≠ j
    · rw [if_pos hrj]
      rcases getD_set_cases ps r k ((ps.getD r procD).wait d) with hc | ⟨hv, hk⟩
      · rw [hc]
        exact h k
      · rw [hv, hk]
        exact hW _ _ _ (h r)
    · rw [if_neg hrj]
      exact h k

lemma applyWaits_sameCore (ready : List Nat) (ps : List Process) (j d : Nat) :
    ∀ i, sameCore (ps.getD i procD) ((applyWaits ps ready j d).getD i procD) :=
  applyWaits_rel sameCore (fun a p d2 h => sameCore_wait a p d2 h) ready ps j d
    (fun i => ps.getD i procD) (fun i => sameCore_refl _)

/-- Membership facts about the ready set. -/
lemma readyIdx_not_term {σ : Type} (s : Engine σ) (i : Nat) (h : i ∈ readyIdx s) :
    (s.processes.getD i procD).is_terminated = false := by
  unfold readyIdx at h
  rcases List.mem_filter.mp h with ⟨_, h2⟩
  rcases Bool.and_eq_true_iff.mp h2 with ⟨_, h3⟩
  simpa using h3

lemma execute_pres (p : Process) (t q : Nat) (hterm : p.state ≠ PState.TERMINATED)
    (hwf : procWF p) :
    procWF (p.execute t q).1 ∧ fieldsPreserved p (p.execute t q).1 := by
  have hfin : p.finish_time = none := by
    by_contra hc
    exact hterm (hwf.1 hc)
  by_cases hs : p.start_time = none
  · have hr : p.response_time = none := hwf.2 hs
    simp only [Process.execute]
    split_ifs <;> simp_all [procWF, fieldsPreserved]
  · simp only [Process.execute]
    split_ifs <;> simp_all [procWF, fieldsPreserved]

lemma execute_state_ne_new (p : Process) (t q : Nat) :
    (p.execute t q).1.state ≠ PState.NEW := by
  simp only [Process.execute]
  split_ifs <;> simp_all

lemma execute_state_of_not_term (p : Process) (t q : Nat) :
    (p.execute t q).1.state = PState.RUNNING ∨
    (p.execute t q).1.state = PState.TERMINATED := by
  simp only [Process.execute]
  split_ifs <;> simp_all


lemma Qnew_wait (p : Process) (d : Nat) (h : Qnew p) : Qnew (p.wait d) := by
  intro hst
  have hp : p.state = PState.NEW := (wait_state p d) ▸ hst
  rw [wait_new_fix p d hp]
  exact h hp


lemma procWF_procD : procWF procD := by
  constructor
  · intro h
    exact absurd rfl h
  · intro _
    rfl

lemma mkEngine_pointwise {σ : Type} (w : List ProcSpec) (ov slice0 : Nat) (p0 : σ)
    (Q : Process → Prop) (hmk : ∀ c : ProcSpec,
      Q (mkProcess c.pid c.name c.arrival_time c.burst_time c.priority))
    (hd : Q procD) :
    ∀ i, Q ((mkEngine w ov slice0 p0).processes.getD i procD) := by
  intro i
  show Q ((w.map (fun c =>
    mkProcess c.pid c.name c.arrival_time c.burst_time c.priority)).getD i procD)
  rw [List.getD_eq_getElem?_getD, List.getElem?_map]
  cases hw : w[i]? with
  | none => exact hd
  | some c => exact hmk c

/-- Shape of the process list across one engine step: either untouched,
or the policy chose index j and the list went through the optional
context-switch waits, the execution at j, and the post-execution
waits. -/
lemma step_processes_cases {σ : Type} (select : Select σ) (u : Option Nat)
    (s : Engine σ) :
    (step select u s).processes = s.processes ∨
    ∃ (j : Nat) (ps2 : σ) (ts2 t1 q1 d2 : Nat) (ps1 : List Process),
      select s.pstate s.current_process s.processes (readyIdx s) s.time_slice =
        (some j, ps2, ts2) ∧
      (ps1 = s.processes ∨
        ps1 = applyWaits s.processes (readyIdx s) j s.context_switch_overhead) ∧
      (step select u s).processes =
        applyWaits (ps1.set j (((ps1.getD j procD).execute t1 q1).1))
          (readyIdx s) j d2 := by
  simp only [step]
  by_cases hc : (decide (s.completed_processes.length < s.processes.length) &&
      underBudget u s.current_time) = true
  · rw [if_pos hc]
    by_cases hre : (readyIdx s).isEmpty = true
    · rw [if_pos hre]
      cases hna : nextArrival s with
      | none => exact Or.inl rfl
      | some na =>
        left
        dsimp only
        split <;> rfl
    · rw [if_neg hre]
      rcases hsel_eq : select s.pstate s.current_process s.processes (readyIdx s)
          s.time_slice with ⟨osel, ps2, ts2⟩
      cases osel with
      | none => exact Or.inl rfl
      | some j =>
        right
        dsimp only
        split

        · refine ⟨j, ps2, ts2, s.current_time + s.context_switch_overhead, ts2,
            (((applyWaits s.processes (readyIdx s) j
                s.context_switch_overhead).getD j procD).execute
              (s.current_time + s.context_switch_overhead) ts2).2,
            applyWaits s.processes (readyIdx s) j s.context_switch_overhead,
            rfl, Or.inr rfl, ?_⟩
          split <;> rfl
        · refine ⟨j, ps2, ts2, s.current_time, ts2,
            ((s.processes.getD j procD).execute s.current_time ts2).2,
            s.processes, rfl, Or.inl rfl, ?_⟩
          split <;> rfl
  · rw [if_neg hc]
    exact Or.inl rfl

lemma step_Qnew {σ : Type} (select : Select σ) (u : Option Nat) (s : Engine σ)
    (h : ∀ i, Qnew (s.processes.getD i procD)) :
    ∀ i, Qnew ((step select u s).processes.getD i procD) := by
  rcases step_processes_cases select u s with heq |
    ⟨j, ps2, ts2, t1, q1, d2, ps1, _, hps1, heq⟩
  · rw [heq]
    exact h
  · rw [heq]
    have h1 : ∀ i, Qnew (ps1.getD i procD) := by
      rcases hps1 with h1 | h1
      · rw [h1]; exact h
      · rw [h1]
        exact applyWaits_rel (fun _ p => Qnew p)
          (fun _ p d3 hq => Qnew_wait p d3 hq) (readyIdx s) s.processes j
          s.context_switch_overhead (fun _ => procD) h
    have h2 : ∀ i, Qnew ((ps1.set j (((ps1.getD j procD).execute t1 q1).1)).getD i procD) := by
      intro i
      rcases getD_set_cases ps1 j i (((ps1.getD j procD).execute t1 q1).1) with hc | ⟨hv, _⟩
      · rw [hc]; exact h1 i
      · rw [hv]
        intro hst
        exact absurd hst (execute_state_ne_new _ t1 q1)
    exact applyWaits_rel (fun _ p => Qnew p)
      (fun _ p d3 hq => Qnew_wait p d3 hq) (readyIdx s) _ j d2 (fun _ => procD) h2

lemma R7_wait (a p : Process) (d : Nat) (h : fieldsPreserved a p ∧ procWF p) :
    fieldsPreserved a (p.wait d) ∧ procWF (p.wait d) :=
  ⟨fieldsPreserved_trans a p (p.wait d) h.1
      (sameCore_fieldsPreserved p (p.wait d) (sameCore_wait p p d (sameCore_refl p))),
   procWF_of_sameCore p (p.wait d) h.2 (sameCore_wait p p d (sameCore_refl p))⟩

lemma step_pres {σ : Type} (select : Select σ) (u : Option Nat) (s : Engine σ)
    (hsel : SelSoundAt select s)
    (hwf : engWF s) :
    engWF (step select u s) ∧
    ∀ i, fieldsPreserved (s.processes.getD i procD)
      ((step select u s).processes.getD i procD) := by
  rcases step_processes_cases select u s with heq |
    ⟨j, ps2, ts2, t1, q1, d2, ps1, hsel_eq, hps1, heq⟩
  · constructor
    · intro i
      rw [show (step select u s).processes = s.processes from heq]
      exact hwf i
    · intro i
      rw [heq]
      exact fieldsPreserved_refl _
  · have hj : j ∈ readyIdx s :=
      hsel j (by simp only [selAt]; rw [hsel_eq])
    have hjterm : (s.processes.getD j procD).state ≠ PState.TERMINATED := by
      have h2 := readyIdx_not_term s j hj
      unfold Process.is_terminated at h2
      intro hc
      rw [hc] at h2
      simp at h2
    have h1core : ∀ i, sameCore (s.processes.getD i procD) (ps1.getD i procD) := by
      rcases hps1 with h1 | h1
      · rw [h1]; exact fun i => sameCore_refl _
      · rw [h1]; exact applyWaits_sameCore (readyIdx s) s.processes j
          s.context_switch_overhead
    have h1 : ∀ i, fieldsPreserved (s.processes.getD i procD) (ps1.getD i procD) ∧
        procWF (ps1.getD i procD) := fun i =>
      ⟨sameCore_fieldsPreserved _ _ (h1core i),
       procWF_of_sameCore _ _ (hwf i) (h1core i)⟩
    have hterm1 : (ps1.getD j procD).state ≠ PState.TERMINATED := by
      rw [(h1core j).2.2.2]
      exact hjterm
    have hexec := execute_pres (ps1.getD j procD) t1 q1 hterm1 (h1 j).2
    have h2 : ∀ i, fieldsPreserved (s.processes.getD i procD)
        ((ps1.set j (((ps1.getD j procD).execute t1 q1).1)).getD i procD) ∧
        procWF ((ps1.set j (((ps1.getD j procD).execute t1 q1).1)).getD i procD) := by
      intro i
      rcases getD_set_cases ps1 j i (((ps1.getD j procD).execute t1 q1).1) with hc | ⟨hv, hi⟩
      · rw [hc]; exact h1 i
      · rw [hv, hi]
        exact ⟨fieldsPreserved_trans _ _ _ (h1 j).1 hexec.2, hexec.1⟩
    have h3 := applyWaits_rel
      (fun a p => fieldsPreserved a p ∧ procWF p) R7_wait (readyIdx s)
      (ps1.set j (((ps1.getD j procD).execute t1 q1).1)) j d2
      (fun i => s.processes.getD i procD) h2
    constructor
    · intro i
      rw [heq]
      exact (h3 i).2
    · intro i
      rw [heq]
      exact (h3 i).1

lemma runSteps_Qnew {σ : Type} (select : Select σ) (u : Option Nat)
    (w : List ProcSpec) (ov slice0 : Nat) (p0 : σ) (fuel : Nat) :
    ∀ i, Qnew ((runSteps select u (mkEngine w ov slice0 p0) fuel).processes.getD i procD) := by
  induction fuel with
  | zero =>
    exact mkEngine_pointwise w ov slice0 p0 Qnew (fun c _ => rfl) (fun _ => rfl)
  | succ n ih =>
    exact step_Qnew select u (runSteps select u (mkEngine w ov slice0 p0) n) ih

lemma runSteps_engWF {σ : Type} (select : Select σ) (u : Option Nat)
    (w : List ProcSpec) (ov slice0 : Nat) (p0 : σ)
    (hsel : ∀ m, SelSoundAt select (runSteps select u (mkEngine w ov slice0 p0) m))
    (fuel : Nat) :
    engWF (runSteps select u (mkEngine w ov slice0 p0) fuel) := by
  induction fuel with
  | zero =>
    exact mkEngine_pointwise w ov slice0 p0 procWF
      (fun c => ⟨fun hc => absurd rfl hc, fun _ => rfl⟩) procWF_procD
  | succ n ih =>
    exact (step_pres select u (runSteps select u (mkEngine w ov slice0 p0) n)
      (hsel n) ih).1

lemma foldl_min_gt (t : Nat) : ∀ (l : List Nat) (a : Nat), t < a →
    (∀ x ∈ l, t < x) → t < l.foldl min a := by
  intro l
  induction l with
  | nil => intro a ha _; exact ha
  | cons x xs ih =>
    intro a ha hall
    have hx : t < x := hall x (List.mem_cons.mpr (Or.inl rfl))
    exact ih (min a x) (lt_min ha hx)
      (fun y hy => hall y (List.mem_cons.mpr (Or.inr hy)))

lemma nextArrival_gt {σ : Type} (s : Engine σ) (na : Nat)
    (h : nextArrival s = some na) : s.current_time < na := by
  unfold nextArrival at h
  cases hl : (s.processes.filter (fun p =>
      ! p.is_terminated && decide (s.current_time < p.arrival_time))).map
      (fun p => p.arrival_time) with
  | nil => rw [hl] at h; exact absurd h (by simp)
  | cons a rest =>
    rw [hl] at h
    have hna : na = rest.foldl min a := by
      have := h
      simp at this
      exact this.symm
    have hmem : ∀ x ∈ a :: rest, s.current_time < x := by
      intro x hx
      have hx2 : x ∈ (s.processes.filter (fun p =>
          ! p.is_terminated && decide (s.current_time < p.arrival_time))).map
          (fun p => p.arrival_time) := hl ▸ hx
      rcases List.mem_map.mp hx2 with ⟨p, hp, hpx⟩
      rcases List.mem_filter.mp hp with ⟨_, hp2⟩
      rcases Bool.and_eq_true_iff.mp hp2 with ⟨_, hp3⟩
      exact hpx ▸ of_decide_eq_true hp3
    rw [hna]
    exact foldl_min_gt s.current_time rest a
      (hmem a (List.mem_cons.mpr (Or.inl rfl)))
      (fun x hx => hmem x (List.mem_cons.mpr (Or.inr hx)))

/-- Finer shape of one engine step, also exposing the policy state and
the clock: either nothing relevant changes (guard false, break, or idle
jump), or the policy answered none, or it chose index j and the process
list went through the optional context-switch waits, the execution at j
with the returned slice, and the post-execution waits. -/
lemma step_cases_full {σ : Type} (select : Select σ) (u : Option Nat) (s : Engine σ) :
    ((step select u s).processes = s.processes ∧
      (step select u s).pstate = s.pstate ∧
      s.current_time ≤ (step select u s).current_time) ∨
    (∃ (ps2 : σ) (ts2 : Nat),
      select s.pstate s.current_process s.processes (readyIdx s) s.time_slice =
        (none, ps2, ts2) ∧
      (step select u s).processes = s.processes ∧
      (step select u s).pstate = ps2 ∧
      (step select u s).current_time = s.current_time) ∨
    (∃ (j : Nat) (ps2 : σ) (ts2 t1 d2 : Nat) (ps1 : List Process),
      select s.pstate s.current_process s.processes (readyIdx s) s.time_slice =
        (some j, ps2, ts2) ∧
      (ps1 = s.processes ∨
        ps1 = applyWaits s.processes (readyIdx s) j s.context_switch_overhead) ∧
      (step select u s).processes =
        applyWaits (ps1.set j (((ps1.getD j procD).execute t1 ts2).1)) (readyIdx s) j d2 ∧
      (step select u s).pstate = ps2 ∧
      s.current_time ≤ (step select u s).current_time) := by
  simp only [step]
  by_cases hc : (decide (s.completed_processes.length < s.processes.length) &&
      underBudget u s.current_time) = true
  · rw [if_pos hc]
    by_cases hre : (readyIdx s).isEmpty = true
    · rw [if_pos hre]
      cases hna : nextArrival s with
      | none => exact Or.inl ⟨rfl, rfl, Nat.le_refl _⟩
      | some na =>
        left
        have hlt : s.current_time < na := nextArrival_gt s na hna
        dsimp only
        rw [if_pos hlt]
        exact ⟨rfl, rfl, Nat.le_of_lt hlt⟩
    · rw [if_neg hre]
      rcases hsel_eq : select s.pstate s.current_process s.processes (readyIdx s)
          s.time_slice with ⟨osel, ps2, ts2⟩
      cases osel with
      | none => exact Or.inr (Or.inl ⟨ps2, ts2, rfl, rfl, rfl, rfl⟩)
      | some j =>
        right; right
        dsimp only
        split
        · refine ⟨j, ps2, ts2, s.current_time + s.context_switch_overhead,
            (((applyWaits s.processes (readyIdx s) j
                s.context_switch_overhead).getD j procD).execute
              (s.current_time + s.context_switch_overhead) ts2).2,
            applyWaits s.processes (readyIdx s) j s.context_switch_overhead,
            rfl, Or.inr rfl, ?_, ?_, ?_⟩
          · split <;> rfl
          · split <;> rfl
          · split <;>
              exact Nat.le_trans (Nat.le_add_right _ _) (Nat.le_add_right _ _)
        · refine ⟨j, ps2, ts2, s.current_time,
            ((s.processes.getD j procD).execute s.current_time ts2).2,
            s.processes, rfl, Or.inl rfl, ?_, ?_, ?_⟩
          · split <;> rfl
          · split <;> rfl
          · split <;> exact Nat.le_add_right _ _
  · rw [if_neg hc]
    exact Or.inl ⟨rfl, rfl, Nat.le_refl _⟩

lemma applyWaits_length (ready : List Nat) (ps : List Process) (j d : Nat) :
    (applyWaits ps ready j d).length = ps.length := by
  induction ready generalizing ps with
  | nil => rfl
  | cons r rest ih =>
    have hstep : applyWaits ps (r :: rest) j d =
        applyWaits (if r ≠ j then ps.set r ((ps.getD r procD).wait d) else ps) rest j d := by
      simp only [applyWaits, List.foldl]
    rw [hstep, ih]
    split <;> simp

lemma wait_arrival (p : Process) (d : Nat) : (p.wait d).arrival_time = p.arrival_time := by
  unfold Process.wait
  split <;> rfl

lemma arrState_refl (p : Process) : arrState p p := ⟨rfl, rfl⟩

lemma arrState_trans (a p q : Process) (h1 : arrState a p) (h2 : arrState p q) :
    arrState a q := ⟨h2.1.trans h1.1, h2.2.trans h1.2⟩

lemma arrState_wait (a p : Process) (d : Nat) (h : arrState a p) :
    arrState a (p.wait d) :=
  ⟨(wait_arrival p d).trans h.1, (wait_state p d).trans h.2⟩

lemma applyWaits_arrState (ready : List Nat) (ps : List Process) (j d : Nat) :
    ∀ i, arrState (ps.getD i procD) ((applyWaits ps ready j d).getD i procD) :=
  applyWaits_rel arrState arrState_wait ready ps j d
    (fun i => ps.getD i procD) (fun i => arrState_refl _)

lemma mem_readyIdx_iff {σ : Type} (s : Engine σ) (i : Nat) :
    i ∈ readyIdx s ↔ i < s.processes.length ∧
      (s.processes.getD i procD).arrival_time ≤ s.current_time ∧
      (s.processes.getD i procD).state ≠ PState.TERMINATED := by
  unfold readyIdx
  rw [List.mem_filter, List.mem_range]
  unfold Process.is_arrived Process.is_terminated
  rw [Bool.and_eq_true_iff]
  constructor
  · rintro ⟨h1, h2, h3⟩
    refine ⟨h1, of_decide_eq_true h2, ?_⟩
    intro hc
    rw [hc] at h3
    simp at h3
  · rintro ⟨h1, h2, h3⟩
    refine ⟨h1, decide_eq_true h2, ?_⟩
    simpa using h3

lemma readyIdx_nodup {σ : Type} (s : Engine σ) : (readyIdx s).Nodup :=
  List.Nodup.filter _ (List.nodup_range _)

/-- A state invariant that holds initially and is preserved by the loop
body holds at every step count. -/
lemma runSteps_inv {σ : Type} (select : Select σ) (u : Option Nat) (s0 : Engine σ)
    (Inv : Engine σ → Prop) (h0 : Inv s0)
    (hstep : ∀ s, Inv s → Inv (step select u s)) :
    ∀ n, Inv (runSteps select u s0 n) := by
  intro n
  induction n with
  | zero => exact h0
  | succ m ih => exact hstep _ ih

lemma pyMaxBy_mem (key : Nat → Int × Int × Nat) (l : List Nat) (m : Nat)
    (h : pyMaxBy key l = some m) : m ∈ l := by
  cases hl : l with
  | nil =>
    rw [hl] at h
    exact absurd h (by simp [pyMaxBy])
  | cons a t =>
    obtain ⟨m2, hm2, hmem, _⟩ := pyMaxBy_spec key (a :: t) (by simp)
    rw [hl] at h
    have h2 : m2 = m := by
      have h3 := hm2.symm.trans h
      simpa using h3
    exact h2 ▸ hmem

lemma prioritySelect_mem (preemptive : Bool) (st : Unit) (cur : Option Nat)
    (ps : List Process) (ready : List Nat) (ts : Nat) (j : Nat)
    (h : (prioritySelect preemptive st cur ps ready ts).1 = some j) : j ∈ ready := by
  unfold prioritySelect at h
  cases cur with
  | none => exact pyMaxBy_mem _ ready j h
  | some c =>
    dsimp only at h
    by_cases hcond : (!preemptive && decide (c ∈ ready) &&
        ! (ps.getD c procD).is_terminated) = true
    · rw [if_pos hcond] at h
      have hj : c = j := by simpa using h
      rcases Bool.and_eq_true_iff.mp hcond with ⟨h1, _⟩
      rcases Bool.and_eq_true_iff.mp h1 with ⟨_, h2⟩
      exact hj ▸ of_decide_eq_true h2
    · rw [if_neg hcond] at h
      exact pyMaxBy_mem _ ready j h


lemma logChain_append (a b c : Nat) (l1 l2 : List (LogSubject × Nat × Nat))
    (h1 : logChain a l1 b) (h2 : logChain b l2 c) : logChain a (l1 ++ l2) c := by
  induction l1 generalizing a with
  | nil =>
    have hab : a = b := h1
    simpa [hab] using h2
  | cons e rest ih =>
    obtain ⟨he1, he2, hrest⟩ := h1
    exact ⟨he1, he2, ih e.2.2 hrest⟩


lemma step_chain {σ : Type} (select : Select σ) (u : Option Nat) (s : Engine σ)
    (h : logChain 0 s.execution_log s.current_time) :
    logChain 0 (step select u s).execution_log (step select u s).current_time := by
  simp only [step]
  by_cases hc : (decide (s.completed_processes.length < s.processes.length) &&
      underBudget u s.current_time) = true
  · rw [if_pos hc]
    by_cases hre : (readyIdx s).isEmpty = true
    · rw [if_pos hre]
      cases hna : nextArrival s with
      | none => exact h
      | some na =>
        have hlt : s.current_time < na := nextArrival_gt s na hna
        dsimp only
        rw [if_pos hlt]
        exact logChain_append 0 s.current_time na s.execution_log
          [(LogSubject.idle, s.current_time, na)] h ⟨rfl, Nat.le_of_lt hlt, rfl⟩
    · rw [if_neg hre]
      rcases hsel_eq : select s.pstate s.current_process s.processes (readyIdx s)
          s.time_slice with ⟨osel, ps2, ts2⟩
      cases osel with
      | none => exact h
      | some j =>
        dsimp only
        split
        · split
          · exact logChain_append 0 _ _ _ _
              (logChain_append 0 _ _ _ _ h ⟨rfl, Nat.le_add_right _ _, rfl⟩)
              ⟨rfl, Nat.le_add_right _ _, rfl⟩
          · exact logChain_append 0 _ _ _ _
              (logChain_append 0 _ _ _ _ h ⟨rfl, Nat.le_add_right _ _, rfl⟩)
              ⟨rfl, Nat.le_add_right _ _, rfl⟩
        · split
          · exact logChain_append 0 _ _ _ _ h ⟨rfl, Nat.le_add_right _ _, rfl⟩
          · exact logChain_append 0 _ _ _ _ h ⟨rfl, Nat.le_add_right _ _, rfl⟩
  · rw [if_neg hc]
    exact h


lemma getD_map_erase (ps : List Process) (i : Nat) :
    (ps.map eraseName).getD i procD = eraseName (ps.getD i procD) := by
  rw [List.getD_eq_getElem?_getD, List.getElem?_map, List.getD_eq_getElem?_getD]
  cases ps[i]? <;> rfl

lemma erase_wait (p : Process) (d : Nat) :
    (eraseName p).wait d = eraseName (p.wait d) := by
  by_cases hc : p.state = PState.READY ∨ p.state = PState.WAITING
  · simp [Process.wait, eraseName, hc]
  · simp [Process.wait, eraseName, hc]

lemma erase_execute (p : Process) (t q : Nat) :
    (eraseName p).execute t q = (eraseName (p.execute t q).1, (p.execute t q).2) := by
  obtain ⟨pid, name, arr, burst, prio, rem, st, fin, wt, rt, state, hist⟩ := p
  simp only [Process.execute, eraseName]
  split_ifs <;> simp_all

lemma readyIdx_erase {σ : Type} (s : Engine σ) : readyIdx (eraseE s) = readyIdx s := by
  unfold readyIdx eraseE
  dsimp only
  rw [List.length_map]
  apply List.filter_congr
  intro i _
  rw [getD_map_erase]
  rfl

lemma nextArrival_erase {σ : Type} (s : Engine σ) :
    nextArrival (eraseE s) = nextArrival s := by
  unfold nextArrival eraseE
  dsimp only
  rw [List.filter_map]
  rw [show ((fun p : Process =>
      ! p.is_terminated && decide (s.current_time < p.arrival_time)) ∘ eraseName) =
      (fun p : Process =>
      ! p.is_terminated && decide (s.current_time < p.arrival_time)) from funext (fun p => rfl)]
  rw [List.map_map]
  rw [show ((fun p : Process => p.arrival_time) ∘ eraseName) =
      (fun p : Process => p.arrival_time) from funext (fun p => rfl)]

lemma applyWaits_erase : ∀ (ready : List Nat) (ps : List Process) (j d : Nat),
    applyWaits (ps.map eraseName) ready j d = (applyWaits ps ready j d).map eraseName := by
  intro ready
  induction ready with
  | nil => intro ps j d; rfl
  | cons r rest ih =>
    intro ps j d
    have h1 : applyWaits (ps.map eraseName) (r :: rest) j d =
        applyWaits (if r ≠ j then
          (ps.map eraseName).set r (((ps.map eraseName).getD r procD).wait d)
          else ps.map eraseName) rest j d := by
      simp only [applyWaits, List.foldl]
    have h2 : applyWaits ps (r :: rest) j d =
        applyWaits (if r ≠ j then ps.set r ((ps.getD r procD).wait d) else ps) rest j d := by
      simp only [applyWaits, List.foldl]
    rw [h1, h2]
    by_cases hrj : r ≠ j
    · rw [if_pos hrj, if_pos hrj, getD_map_erase, erase_wait, ← List.map_set]
      exact ih _ j d
    · rw [if_neg hrj, if_neg hrj]
      exact ih ps j d

lemma erase_pid (p : Process) : (eraseName p).pid = p.pid := rfl

lemma erase_is_terminated (p : Process) :
    (eraseName p).is_terminated = p.is_terminated := rfl

lemma step_erase {σ : Type} (select : Select σ) (u : Option Nat) (s : Engine σ)
    (hblind : ∀ (st : σ) (cur : Option Nat) (ps : List Process) (ready : List Nat)
      (ts : Nat), select st cur (ps.map eraseName) ready ts = select st cur ps ready ts) :
    step select u (eraseE s) = eraseE (step select u s) := by
  simp only [step]
  rw [readyIdx_erase, nextArrival_erase,
    show (eraseE s).completed_processes = s.completed_processes from rfl,
    show (eraseE s).current_time = s.current_time from rfl,
    show (eraseE s).pstate = s.pstate from rfl,
    show (eraseE s).current_process = s.current_process from rfl,
    show (eraseE s).time_slice = s.time_slice from rfl,
    show (eraseE s).context_switch_overhead = s.context_switch_overhead from rfl,
    show (eraseE s).processes = s.processes.map eraseName from rfl,
    List.length_map, hblind]
  by_cases hc : (decide (s.completed_processes.length < s.processes.length) &&
      underBudget u s.current_time) = true
  · rw [if_pos hc, if_pos hc]
    by_cases hre : (readyIdx s).isEmpty = true
    · rw [if_pos hre, if_pos hre]
      cases hna : nextArrival s with
      | none => rfl
      | some na =>
        dsimp only
        by_cases hlt : s.current_time < na
        · rw [if_pos hlt, if_pos hlt]
          rfl
        · rw [if_neg hlt, if_neg hlt]
          rfl
    · rw [if_neg hre, if_neg hre]
      rcases hsel_eq : select s.pstate s.current_process s.processes (readyIdx s)
          s.time_slice with ⟨osel, ps2, ts2⟩
      cases osel with
      | none => rfl
      | some j =>
        dsimp only
        by_cases hcs : s.context_switch_overhead > 0 ∧ s.current_process ≠ some j ∧
            s.current_process ≠ none
        · rw [if_pos hcs, if_pos hcs]
          simp only [applyWaits_erase, getD_map_erase, erase_execute, erase_pid,
            erase_is_terminated, ← List.map_set]
          split <;> rfl
        · rw [if_neg hcs, if_neg hcs]
          simp only [applyWaits_erase, getD_map_erase, erase_execute, erase_pid,
            erase_is_terminated, ← List.map_set]
          split <;> rfl
  · rw [if_neg hc, if_neg hc]

lemma runSteps_erase {σ : Type} (select : Select σ) (u : Option Nat)
    (hblind : ∀ (st : σ) (cur : Option Nat) (ps : List Process) (ready : List Nat)
      (ts : Nat), select st cur (ps.map eraseName) ready ts = select st cur ps ready ts)
    (s : Engine σ) (fuel : Nat) :
    runSteps select u (eraseE s) fuel = eraseE (runSteps select u s fuel) := by
  induction fuel with
  | zero => rfl
  | succ n ih =>
    show step select u (runSteps select u (eraseE s) n) = _
    rw [ih]
    exact step_erase select u _ hblind

lemma eraseE_mkEngine {σ : Type} (w : List ProcSpec) (ov slice0 : Nat) (p0 : σ) :
    eraseE (mkEngine w ov slice0 p0) = mkEngine (w.map stripName) ov slice0 p0 := by
  unfold eraseE mkEngine stripName
  dsimp only
  rw [List.map_map, List.map_map,
    show (eraseName ∘ fun c : ProcSpec =>
        mkProcess c.pid c.name c.arrival_time c.burst_time c.priority) =
      ((fun c : ProcSpec =>
        mkProcess c.pid c.name c.arrival_time c.burst_time c.priority) ∘ fun c : ProcSpec =>
        { pid := c.pid, name := "", arrival_time := c.arrival_time,
          burst_time := c.burst_time, priority := c.priority }) from
      funext (fun c => rfl)]

lemma fcfsSelect_blind (st : Unit) (cur : Option Nat) (ps : List Process)
    (ready : List Nat) (ts : Nat) :
    fcfsSelect st cur (ps.map eraseName) ready ts = fcfsSelect st cur ps ready ts := by
  unfold fcfsSelect
  rw [show (fun i => keyAP ((ps.map eraseName).getD i procD)) =
    (fun i => keyAP (ps.getD i procD)) from
    funext (fun i => by rw [getD_map_erase]; rfl)]

lemma fcfsSelect_mem (st : Unit) (cur : Option Nat) (ps : List Process)
    (ready : List Nat) (ts j : Nat) (h : (fcfsSelect st cur ps ready ts).1 = some j) :
    j ∈ ready := by
  unfold fcfsSelect at h
  exact pyMinBy_mem _ ready j h


lemma rrEnqueue_go (ps : List Process) (stale : List Nat) :
    ∀ (ready q0 : List Nat), ready.Nodup →
      ready.foldl (fun q i =>
        if ! decide ((ps.getD i procD).pid ∈ stale) && ! decide (i ∈ q) then q ++ [i]
        else q) q0 =
      q0 ++ ready.filter (fun i =>
        ! decide ((ps.getD i procD).pid ∈ stale) && ! decide (i ∈ q0)) := by
  intro ready
  induction ready with
  | nil => intro q0 _; simp
  | cons r rest ih =>
    intro q0 hnd
    have hr : r ∉ rest := (List.nodup_cons.mp hnd).1
    have hnd2 : rest.Nodup := (List.nodup_cons.mp hnd).2
    rw [List.foldl_cons, List.filter_cons]
    by_cases hp : (! decide ((ps.getD r procD).pid ∈ stale) && ! decide (r ∈ q0)) = true
    · rw [if_pos hp, if_pos hp, ih (q0 ++ [r]) hnd2]
      have hfc : rest.filter (fun i =>
          ! decide ((ps.getD i procD).pid ∈ stale) && ! decide (i ∈ q0 ++ [r])) =
          rest.filter (fun i =>
          ! decide ((ps.getD i procD).pid ∈ stale) && ! decide (i ∈ q0)) := by
        apply List.filter_congr
        intro i hi
        have hir : i ≠ r := fun he => hr (he ▸ hi)
        simp [List.mem_append, hir]
      rw [hfc, List.append_assoc, List.singleton_append]
    · rw [if_neg hp, if_neg hp]
      exact ih q0 hnd2

lemma rrEnqueue_eq (ps : List Process) (queue ready : List Nat) (hr : ready.Nodup) :
    rrEnqueue ps queue ready = queue ++ ready.filter (fun i =>
      ! decide ((ps.getD i procD).pid ∈ queue.map (fun k => (ps.getD k procD).pid)) &&
      ! decide (i ∈ queue)) := by
  simp only [rrEnqueue]
  exact rrEnqueue_go ps (queue.map (fun k => (ps.getD k procD).pid)) ready queue hr

lemma rrEnqueue_nodup (ps : List Process) (queue ready : List Nat)
    (hq : queue.Nodup) (hr : ready.Nodup) : (rrEnqueue ps queue ready).Nodup := by
  rw [rrEnqueue_eq ps queue ready hr]
  refine List.Nodup.append hq (List.Nodup.filter _ hr) ?_
  intro a ha hb
  rcases List.mem_filter.mp hb with ⟨_, hpred⟩
  rcases Bool.and_eq_true_iff.mp hpred with ⟨_, h2⟩
  simp at h2
  exact h2 ha

lemma rrEnqueue_ne_nil (ps : List Process) (queue ready : List Nat)
    (hr : ready.Nodup) (hready : ready ≠ []) : rrEnqueue ps queue ready ≠ [] := by
  rw [rrEnqueue_eq ps queue ready hr]
  intro hc
  rcases List.append_eq_nil.mp hc with ⟨hq0, hf⟩
  subst hq0
  rw [List.filter_eq_nil_iff] at hf
  cases hre : ready with
  | nil => exact hready hre
  | cons a rest =>
    refine hf a (hre ▸ List.mem_cons.mpr (Or.inl rfl)) ?_
    simp

lemma rrRequeue_nodup (ps : List Process) (cur : Option Nat) (ready q : List Nat)
    (hqn : q.Nodup) : (rrRequeue ps cur ready q).Nodup := by
  unfold rrRequeue
  cases cur with
  | none => exact hqn
  | some c =>
    dsimp only
    by_cases hc : (decide (c ∈ ready) && ! (ps.getD c procD).is_terminated) = true
    · rw [if_pos hc]
      refine List.Nodup.append (List.Nodup.erase c hqn) (List.nodup_singleton c) ?_
      intro a ha hb
      rw [List.mem_singleton] at hb
      subst hb
      exact ((List.Nodup.mem_erase_iff hqn).mp ha).1 rfl
    · rw [if_neg hc]
      exact hqn

lemma rrRequeue_ne_nil (ps : List Process) (cur : Option Nat) (ready q : List Nat)
    (hq : q ≠ []) : rrRequeue ps cur ready q ≠ [] := by
  unfold rrRequeue
  cases cur with
  | none => exact hq
  | some c =>
    dsimp only
    by_cases hc : (decide (c ∈ ready) && ! (ps.getD c procD).is_terminated) = true
    · rw [if_pos hc]
      simp
    · rw [if_neg hc]
      exact hq

lemma mlScan_spec : ∀ (qs1 : List MLQueue) (q : MLQueue) (qs2 : List MLQueue)
    (h : Nat) (t : List Nat) (ts : Nat), (∀ x ∈ qs1, x.queue = []) →
    q.queue = h :: t →
    mlScan (qs1 ++ q :: qs2) ts =
      some (h, qs1 ++ { alg := q.alg, queue := t } :: qs2,
        match q.alg with | MLAlg.rr tq => tq | MLAlg.fcfs => ts) := by
  intro qs1
  induction qs1 with
  | nil =>
    intro q qs2 h t ts _ hq
    simp only [List.nil_append, mlScan]
    rw [hq]
    cases halg : q.alg <;> rfl
  | cons x rest ih =>
    intro q qs2 h t ts hempty hq
    have hx : x.queue = [] := hempty x (List.mem_cons.mpr (Or.inl rfl))
    simp only [List.cons_append, mlScan, hx, List.append_eq]
    rw [ih q qs2 h t ts (fun y hy => hempty y (List.mem_cons.mpr (Or.inr hy))) hq]

lemma fcfs_run_sound (u : Option Nat) (w : List ProcSpec) (ov slice0 : Nat) :
    ∀ m, SelSoundAt fcfsSelect (runSteps fcfsSelect u (mkEngine w ov slice0 ()) m) :=
  fun _ j h => fcfsSelect_mem _ _ _ _ _ j h

lemma priority_run_sound (preemptive : Bool) (u : Option Nat) (w : List ProcSpec)
    (ov slice0 : Nat) :
    ∀ m, SelSoundAt (prioritySelect preemptive)
      (runSteps (prioritySelect preemptive) u (mkEngine w ov slice0 ()) m) :=
  fun _ j h => prioritySelect_mem preemptive _ _ _ _ _ j h

lemma insertByKey_mem (ps : List Process) (i x : Nat) :
    ∀ l : List Nat, x ∈ insertByKey ps i l → x = i ∨ x ∈ l := by
  intro l
  induction l with
  | nil =>
    intro h
    simp only [insertByKey, List.mem_singleton] at h
    exact Or.inl h
  | cons j rest ih =>
    intro h
    simp only [insertByKey] at h
    by_cases hc : key2LtP (keyAP (ps.getD j procD)) (keyAP (ps.getD i procD))
    · rw [if_pos hc] at h
      rcases List.mem_cons.mp h with h2 | h2
      · exact Or.inr (List.mem_cons.mpr (Or.inl h2))
      · rcases ih h2 with h3 | h3
        · exact Or.inl h3
        · exact Or.inr (List.mem_cons.mpr (Or.inr h3))
    · rw [if_neg hc] at h
      rcases List.mem_cons.mp h with h2 | h2
      · exact Or.inl h2
      · exact Or.inr h2

lemma sortByKey_subset (ps : List Process) :
    ∀ (l : List Nat) (x : Nat), x ∈ sortByKey ps l → x ∈ l := by
  intro l
  induction l with
  | nil =>
    intro x h
    simpa [sortByKey] using h
  | cons i rest ih =>
    intro x h
    simp only [sortByKey] at h
    rcases insertByKey_mem ps i x (sortByKey ps rest) h with h2 | h2
    · exact List.mem_cons.mpr (Or.inl h2)
    · exact List.mem_cons.mpr (Or.inr (ih x h2))

lemma rrEnqueue_subset (ps : List Process) (queue ready : List Nat)
    (hr : ready.Nodup) :
    ∀ x ∈ rrEnqueue ps queue ready, x ∈ queue ∨ x ∈ ready := by
  intro x hx
  rw [rrEnqueue_eq ps queue ready hr] at hx
  rcases List.mem_append.mp hx with h | h
  · exact Or.inl h
  · exact Or.inr (List.mem_filter.mp h).1

lemma rrRequeue_subset (ps : List Process) (cur : Option Nat) (ready q : List Nat) :
    ∀ x ∈ rrRequeue ps cur ready q, x ∈ q ∨ x ∈ ready := by
  intro x hx
  unfold rrRequeue at hx
  cases cur with
  | none => exact Or.inl hx
  | some c =>
    dsimp only at hx
    by_cases hc : (decide (c ∈ ready) && ! (ps.getD c procD).is_terminated) = true
    · rw [if_pos hc] at hx
      rcases List.mem_append.mp hx with h | h
      · exact Or.inl (List.mem_of_mem_erase h)
      · rw [List.mem_singleton] at h
        subst h
        exact Or.inr (of_decide_eq_true (Bool.and_eq_true_iff.mp hc).1)
    · rw [if_neg hc] at hx
      exact Or.inl hx

lemma rrFallback_noop (ps : List Process) (queue ready : List Nat) (cur : Option Nat)
    (hr : ready.Nodup) :
    rrFallback ps ready (rrRequeue ps cur ready (rrEnqueue ps queue ready)) =
      rrRequeue ps cur ready (rrEnqueue ps queue ready) := by
  unfold rrFallback
  by_cases hready : ready = []
  · rw [if_neg]
    simp [hready]
  · rw [if_neg]
    have hne := rrRequeue_ne_nil ps cur ready (rrEnqueue ps queue ready)
      (rrEnqueue_ne_nil ps queue ready hr hready)
    simp [List.isEmpty_iff, hne]

lemma rrSelect_none_queue (ps : List Process) (queue ready : List Nat)
    (cur : Option Nat) (ts : Nat) (ps2 : List Nat) (ts2 : Nat)
    (h : rrSelect queue cur ps ready ts = (none, ps2, ts2)) : ps2 = [] := by
  simp only [rrSelect] at h
  cases hq3 : rrFallback ps ready (rrRequeue ps cur ready (rrEnqueue ps queue ready)) with
  | nil =>
    rw [hq3] at h
    have h2 := h
    simp at h2
    exact h2.1
  | cons a b =>
    rw [hq3] at h
    simp at h

lemma rrSelect_facts (ps : List Process) (queue ready : List Nat) (cur : Option Nat)
    (ts : Nat) (hq : queue.Nodup) (hr : ready.Nodup) :
    (rrSelect queue cur ps ready ts).2.1.Nodup ∧
    (∀ x ∈ (rrSelect queue cur ps ready ts).2.1, x ∈ queue ∨ x ∈ ready) ∧
    (∀ j, (rrSelect queue cur ps ready ts).1 = some j →
      (j ∈ queue ∨ j ∈ ready) ∧ j ∉ (rrSelect queue cur ps ready ts).2.1) := by
  have hq2n : (rrRequeue ps cur ready (rrEnqueue ps queue ready)).Nodup :=
    rrRequeue_nodup ps cur ready (rrEnqueue ps queue ready)
      (rrEnqueue_nodup ps queue ready hq hr)
  have hsub : ∀ x ∈ rrRequeue ps cur ready (rrEnqueue ps queue ready),
      x ∈ queue ∨ x ∈ ready := by
    intro x hx
    rcases rrRequeue_subset ps cur ready _ x hx with h | h
    · exact rrEnqueue_subset ps queue ready hr x h
    · exact Or.inr h
  have hsel_eq : rrSelect queue cur ps ready ts =
      match rrRequeue ps cur ready (rrEnqueue ps queue ready) with
      | [] => (none, [], ts)
      | h :: t2 => (some h, t2, ts) := by
    simp only [rrSelect]
    rw [rrFallback_noop ps queue ready cur hr]
  rw [hsel_eq]
  cases hq2e : rrRequeue ps cur ready (rrEnqueue ps queue ready) with
  | nil =>
    refine ⟨List.nodup_nil, by simp, ?_⟩
    intro j hj
    exact absurd hj (by simp)
  | cons h t2 =>
    rw [hq2e] at hq2n
    refine ⟨(List.nodup_cons.mp hq2n).2, ?_, ?_⟩
    · intro x hx
      exact hsub x (by rw [hq2e]; exact List.mem_cons.mpr (Or.inr hx))
    · intro j hj
      have hjh : h = j := by simpa using hj
      subst hjh
      exact ⟨hsub h (by rw [hq2e]; exact List.mem_cons.mpr (Or.inl rfl)),
        (List.nodup_cons.mp hq2n).1⟩

lemma rr_inv_step (u : Option Nat) (s : Engine (List Nat)) (h : RRInv s) :
    RRInv (step rrSelect u s) := by
  rcases step_cases_full rrSelect u s with ⟨hp, hst, htime⟩ |
    ⟨ps2, ts2, hsel_eq, hp, hst, htime⟩ |
    ⟨j, ps2, ts2, t1, d2, ps1, hsel_eq, hps1, hp, hst, htime⟩
  · refine ⟨hst ▸ h.1, ?_⟩
    intro i hi
    rw [hst] at hi
    have h2 := (mem_readyIdx_iff s i).mp (h.2 i hi)
    apply (mem_readyIdx_iff _ i).mpr
    rw [hp]
    exact ⟨h2.1, Nat.le_trans h2.2.1 htime, h2.2.2⟩
  · have hps2 : ps2 = [] := rrSelect_none_queue s.processes s.pstate (readyIdx s)
      s.current_process s.time_slice ps2 ts2 hsel_eq
    refine ⟨?_, ?_⟩
    · rw [hst, hps2]
      exact List.nodup_nil
    · intro i hi
      rw [hst, hps2] at hi
      exact absurd hi (List.not_mem_nil i)
  · have hfacts := rrSelect_facts s.processes s.pstate (readyIdx s)
      s.current_process s.time_slice h.1 (readyIdx_nodup s)
    have hqp : (rrSelect s.pstate s.current_process s.processes (readyIdx s)
        s.time_slice).2.1 = ps2 := by rw [hsel_eq]
    have hsel1 : (rrSelect s.pstate s.current_process s.processes (readyIdx s)
        s.time_slice).1 = some j := by rw [hsel_eq]
    have hjfact := hfacts.2.2 j hsel1
    have hnodup : ps2.Nodup := hqp ▸ hfacts.1
    have hmem2 : ∀ x ∈ ps2, x ∈ readyIdx s := by
      intro x hx
      rcases hfacts.2.1 x (hqp ▸ hx) with h2 | h2
      · exact h.2 x h2
      · exact h2
    have hjnot : j ∉ ps2 := hqp ▸ hjfact.2
    refine ⟨hst ▸ hnodup, ?_⟩
    intro i hi
    rw [hst] at hi
    have hij : i ≠ j := fun he => hjnot (he ▸ hi)
    have h2 := (mem_readyIdx_iff s i).mp (hmem2 i hi)
    have hchain : arrState (s.processes.getD i procD)
        ((step rrSelect u s).processes.getD i procD) := by
      rw [hp]
      have ha1 : arrState (s.processes.getD i procD) (ps1.getD i procD) := by
        rcases hps1 with h3 | h3
        · rw [h3]
          exact arrState_refl _
        · rw [h3]
          exact applyWaits_arrState _ _ _ _ i
      have ha2 : arrState (s.processes.getD i procD)
          ((ps1.set j (((ps1.getD j procD).execute t1 ts2).1)).getD i procD) := by
        rcases getD_set_cases ps1 j i (((ps1.getD j procD).execute t1 ts2).1) with
          hcc | ⟨_, hii⟩
        · rw [hcc]
          exact ha1
        · exact absurd hii hij
      exact arrState_trans _ _ _ ha2 (applyWaits_arrState _ _ _ _ i)
    apply (mem_readyIdx_iff _ i).mpr
    refine ⟨?_, ?_, ?_⟩
    · rw [hp, applyWaits_length, List.length_set]
      rcases hps1 with h3 | h3
      · rw [h3]
        exact h2.1
      · rw [h3, applyWaits_length]
        exact h2.1
    · rw [hchain.1]
      exact Nat.le_trans h2.2.1 htime
    · rw [hchain.2]
      exact h2.2.2

lemma rr_run_sound (u : Option Nat) (w : List ProcSpec) (ov slice0 : Nat) :
    ∀ m, SelSoundAt rrSelect
      (runSteps rrSelect u (mkEngine w ov slice0 ([] : List Nat)) m) := by
  have hinv : ∀ m, RRInv (runSteps rrSelect u (mkEngine w ov slice0 ([] : List Nat)) m) :=
    runSteps_inv rrSelect u _ RRInv
      ⟨List.nodup_nil, fun i hi => absurd hi (List.not_mem_nil i)⟩
      (fun s hs => rr_inv_step u s hs)
  intro m j hj
  rcases ((rrSelect_facts _ _ _ _ _ (hinv m).1 (readyIdx_nodup _)).2.2 j hj).1 with h2 | h2
  · exact (hinv m).2 j h2
  · exact h2

lemma flatML_cons (q : MLQueue) (rest : List MLQueue) :
    flatML (q :: rest) = q.queue ++ flatML rest := rfl

lemma mlInAnyQueue_iff (qs : List MLQueue) (x : Nat) :
    mlInAnyQueue qs x = true ↔ x ∈ flatML qs := by
  induction qs with
  | nil => simp [mlInAnyQueue, flatML]
  | cons q rest ih =>
    unfold mlInAnyQueue at ih ⊢
    rw [flatML_cons, List.any_cons, List.mem_append, ← ih]
    simp

lemma flatML_set_append (qs : List MLQueue) (k : Nat) (i : Nat) (hk : k < qs.length) :
    List.Perm
      (flatML (qs.set k { alg := (qs.getD k mlqD).alg
                          queue := (qs.getD k mlqD).queue ++ [i] }))
      (i :: flatML qs) := by
  induction qs generalizing k with
  | nil => exact absurd hk (by simp)
  | cons q rest ih =>
    cases k with
    | zero =>
      show List.Perm (flatML ({ alg := q.alg, queue := q.queue ++ [i] } :: rest))
        (i :: flatML (q :: rest))
      rw [flatML_cons, flatML_cons]
      rw [List.append_assoc, List.singleton_append]
      exact List.perm_middle
    | succ k2 =>
      have hk2 : k2 < rest.length := by simpa using hk
      show List.Perm
        (flatML (q :: rest.set k2 { alg := (rest.getD k2 mlqD).alg
                                    queue := (rest.getD k2 mlqD).queue ++ [i] }))
        (i :: flatML (q :: rest))
      rw [flatML_cons, flatML_cons]
      exact (List.Perm.append_left q.queue (ih k2 hk2)).trans List.perm_middle

lemma flatML_erase_sublist (qs : List MLQueue) (c : Nat) :
    List.Sublist
      (flatML (qs.map (fun q => { q with queue := q.queue.erase c })))
      (flatML qs) := by
  induction qs with
  | nil => simp [flatML]
  | cons q rest ih =>
    rw [List.map_cons, flatML_cons, flatML_cons]
    exact List.Sublist.append (List.erase_sublist c q.queue) ih

lemma flatML_erase_not_mem (qs : List MLQueue) (c : Nat)
    (hnd : (flatML qs).Nodup) :
    c ∉ flatML (qs.map (fun q => { q with queue := q.queue.erase c })) := by
  induction qs with
  | nil => simp [flatML]
  | cons q rest ih =>
    rw [List.map_cons, flatML_cons]
    rw [flatML_cons] at hnd
    intro hc
    rcases List.mem_append.mp hc with h | h
    · exact ((List.Nodup.mem_erase_iff (List.nodup_append.mp hnd).1).mp h).1 rfl
    · exact ih (List.nodup_append.mp hnd).2.1 h

lemma mlScan_some_facts :
    ∀ (qs : List MLQueue) (ts h2 : Nat) (q3 : List MLQueue) (ts2 : Nat),
      mlScan qs ts = some (h2, q3, ts2) →
      h2 ∈ flatML qs ∧ (∀ x ∈ flatML q3, x ∈ flatML qs) ∧
      ((flatML qs).Nodup → (flatML q3).Nodup ∧ h2 ∉ flatML q3) := by
  intro qs
  induction qs with
  | nil =>
    intro ts h2 q3 ts2 h
    exact absurd h (by simp [mlScan])
  | cons q rest ih =>
    intro ts h2 q3 ts2 h
    simp only [mlScan] at h
    cases hq : q.queue with
    | cons a t =>
      rw [hq] at h
      have hflat : flatML (q :: rest) = a :: (t ++ flatML rest) := by
        rw [flatML_cons, hq]
        rfl
      cases halg : q.alg with
      | fcfs =>
        rw [halg] at h
        simp only [Option.some.injEq, Prod.mk.injEq] at h
        obtain ⟨ha, hq3, _⟩ := h
        subst ha
        rw [← hq3, hflat]
        refine ⟨List.mem_cons.mpr (Or.inl rfl), ?_, ?_⟩
        · intro x hx
          rw [flatML_cons] at hx
          exact List.mem_cons.mpr (Or.inr hx)
        · intro hnd
          rw [flatML_cons]
          exact ⟨(List.nodup_cons.mp hnd).2, (List.nodup_cons.mp hnd).1⟩
      | rr tq =>
        rw [halg] at h
        simp only [Option.some.injEq, Prod.mk.injEq] at h
        obtain ⟨ha, hq3, _⟩ := h
        subst ha
        rw [← hq3, hflat]
        refine ⟨List.mem_cons.mpr (Or.inl rfl), ?_, ?_⟩
        · intro x hx
          rw [flatML_cons] at hx
          exact List.mem_cons.mpr (Or.inr hx)
        · intro hnd
          rw [flatML_cons]
          exact ⟨(List.nodup_cons.mp hnd).2, (List.nodup_cons.mp hnd).1⟩
    | nil =>
      rw [hq] at h
      cases hscan : mlScan rest ts with
      | none =>
        rw [hscan] at h
        exact absurd h (by simp)
      | some trip =>
        obtain ⟨h3, rest2, ts3⟩ := trip
        rw [hscan] at h
        simp only [Option.some.injEq, Prod.mk.injEq] at h
        obtain ⟨hh, hq3, _⟩ := h
        subst hh
        obtain ⟨hm, hsub, hnd⟩ := ih ts h3 rest2 ts3 hscan
        have hflat : flatML (q :: rest) = flatML rest := by
          rw [flatML_cons, hq]
          rfl
        rw [← hq3, hflat]
        refine ⟨hm, ?_, ?_⟩
        · intro x hx
          rw [flatML_cons, hq] at hx
          exact hsub x (by simpa using hx)
        · intro hnd2
          obtain ⟨ha, hb⟩ := hnd hnd2
          constructor
          · rw [flatML_cons, hq]
            simpa using ha
          · rw [flatML_cons, hq]
            simpa using hb

lemma mlScan_none_flat : ∀ (qs : List MLQueue) (ts : Nat),
    mlScan qs ts = none → flatML qs = [] := by
  intro qs
  induction qs with
  | nil => intro _ _; rfl
  | cons q rest ih =>
    intro ts h
    simp only [mlScan] at h
    cases hq : q.queue with
    | cons a t =>
      rw [hq] at h
      cases halg : q.alg with
      | fcfs =>
        rw [halg] at h
        exact absurd h (by simp)
      | rr tq =>
        rw [halg] at h
        exact absurd h (by simp)
    | nil =>
      rw [hq] at h
      cases hscan : mlScan rest ts with
      | some trip =>
        obtain ⟨a, b, c⟩ := trip
        rw [hscan] at h
        exact absurd h (by simp)
      | none =>
        rw [flatML_cons, hq, ih ts hscan]
        rfl

lemma mlEnqueueArrivals_eq_foldl (qc : Nat) (ps : List Process) (cur : Option Nat)
    (ready : List Nat) (qs : List MLQueue) :
    mlEnqueueArrivals qc ps cur ready qs = ready.foldl (mlEnqOne qc ps cur) qs := rfl

lemma mlEnqOne_facts (qc : Nat) (ps : List Process) (cur : Option Nat)
    (qs : List MLQueue) (i : Nat) (hnd : (flatML qs).Nodup) :
    (flatML (mlEnqOne qc ps cur qs i)).Nodup ∧
    (∀ x ∈ flatML (mlEnqOne qc ps cur qs i), x ∈ flatML qs ∨ x = i) := by
  simp only [mlEnqOne]
  by_cases hcond : (! mlInAnyQueue qs i && decide (cur ≠ some i)) = true
  · rw [if_pos hcond]
    by_cases hk : get_queue_for_process qc (ps.getD i procD) < qs.length
    · have hperm := flatML_set_append qs (get_queue_for_process qc (ps.getD i procD)) i hk
      have hmem_i : i ∉ flatML qs := by
        rcases Bool.and_eq_true_iff.mp hcond with ⟨h1, _⟩
        intro hc
        rw [(mlInAnyQueue_iff qs i).mpr hc] at h1
        simp at h1
      constructor
      · exact (List.Perm.nodup_iff hperm).mpr (List.nodup_cons.mpr ⟨hmem_i, hnd⟩)
      · intro x hx
        rcases List.mem_cons.mp ((List.Perm.mem_iff hperm).mp hx) with h2 | h2
        · exact Or.inr h2
        · exact Or.inl h2
    · rw [List.set_eq_of_length_le (Nat.le_of_not_lt hk)]
      exact ⟨hnd, fun x hx => Or.inl hx⟩
  · rw [if_neg hcond]
    exact ⟨hnd, fun x hx => Or.inl hx⟩

lemma mlEnqueueArrivals_facts (qc : Nat) (ps : List Process) (cur : Option Nat) :
    ∀ (ready : List Nat) (qs : List MLQueue), (flatML qs).Nodup →
      (flatML (mlEnqueueArrivals qc ps cur ready qs)).Nodup ∧
      (∀ x ∈ flatML (mlEnqueueArrivals qc ps cur ready qs),
        x ∈ flatML qs ∨ x ∈ ready) := by
  intro ready
  induction ready with
  | nil =>
    intro qs hnd
    exact ⟨hnd, fun x hx => Or.inl hx⟩
  | cons r rest ih =>
    intro qs hnd
    rw [mlEnqueueArrivals_eq_foldl, List.foldl_cons, ← mlEnqueueArrivals_eq_foldl]
    obtain ⟨h1, h2⟩ := mlEnqOne_facts qc ps cur qs r hnd
    obtain ⟨h3, h4⟩ := ih (mlEnqOne qc ps cur qs r) h1
    refine ⟨h3, ?_⟩
    intro x hx
    rcases h4 x hx with h5 | h5
    · rcases h2 x h5 with h6 | h6
      · exact Or.inl h6
      · exact Or.inr (List.mem_cons.mpr (Or.inl h6))
    · exact Or.inr (List.mem_cons.mpr (Or.inr h5))

lemma mlHandleCurrent_facts (qc : Nat) (ps : List Process) (cur : Option Nat)
    (ready : List Nat) (qs : List MLQueue) (hnd : (flatML qs).Nodup) :
    (flatML (mlHandleCurrent qc ps cur ready qs)).Nodup ∧
    (∀ x ∈ flatML (mlHandleCurrent qc ps cur ready qs),
      x ∈ flatML qs ∨ x ∈ ready) := by
  simp only [mlHandleCurrent]
  cases cur with
  | none => exact ⟨hnd, fun x hx => Or.inl hx⟩
  | some c =>
    dsimp only
    by_cases hcond : (decide (c ∈ ready) && ! (ps.getD c procD).is_terminated) = true
    · rw [if_pos hcond]
      cases halg : (qs.getD (get_queue_for_process qc (ps.getD c procD)) mlqD).alg with
      | fcfs => exact ⟨hnd, fun x hx => Or.inl hx⟩
      | rr tq =>
        have hsub := flatML_erase_sublist qs c
        have hnd2 : (flatML (qs.map
            (fun q => { q with queue := q.queue.erase c }))).Nodup :=
          List.Nodup.sublist hsub hnd
        have hcnot := flatML_erase_not_mem qs c hnd
        have hcr : c ∈ ready := of_decide_eq_true (Bool.and_eq_true_iff.mp hcond).1
        by_cases hk : get_queue_for_process qc (ps.getD c procD) <
            (qs.map (fun q => { q with queue := q.queue.erase c })).length
        · have hperm := flatML_set_append
            (qs.map (fun q => { q with queue := q.queue.erase c }))
            (get_queue_for_process qc (ps.getD c procD)) c hk
          constructor
          · exact (List.Perm.nodup_iff hperm).mpr (List.nodup_cons.mpr ⟨hcnot, hnd2⟩)
          · intro x hx
            rcases List.mem_cons.mp ((List.Perm.mem_iff hperm).mp hx) with h2 | h2
            · exact Or.inr (h2 ▸ hcr)
            · exact Or.inl (List.Sublist.subset hsub h2)
        · rw [List.set_eq_of_length_le (Nat.le_of_not_lt hk)]
          exact ⟨hnd2, fun x hx => Or.inl (List.Sublist.subset hsub hx)⟩
    · rw [if_neg hcond]
      exact ⟨hnd, fun x hx => Or.inl hx⟩

lemma mlSelect_facts (qc : Nat) (qs : List MLQueue) (cur : Option Nat)
    (ps : List Process) (ready : List Nat) (ts : Nat)
    (hnd : (flatML qs).Nodup) :
    (∀ j, (mlSelect qc qs cur ps ready ts).1 = some j →
      j ∈ flatML qs ∨ j ∈ ready) ∧
    (flatML (mlSelect qc qs cur ps ready ts).2.1).Nodup ∧
    (∀ x ∈ flatML (mlSelect qc qs cur ps ready ts).2.1,
      x ∈ flatML qs ∨ x ∈ ready) ∧
    (∀ j, (mlSelect qc qs cur ps ready ts).1 = some j →
      j ∉ flatML (mlSelect qc qs cur ps ready ts).2.1) := by
  obtain ⟨hnd1, hmem1⟩ := mlEnqueueArrivals_facts qc ps cur ready qs hnd
  obtain ⟨hnd2, hmem2⟩ := mlHandleCurrent_facts qc ps cur ready
    (mlEnqueueArrivals qc ps cur ready qs) hnd1
  have htrans : ∀ x ∈ flatML (mlHandleCurrent qc ps cur ready
      (mlEnqueueArrivals qc ps cur ready qs)), x ∈ flatML qs ∨ x ∈ ready := by
    intro x hx
    rcases hmem2 x hx with h | h
    · exact hmem1 x h
    · exact Or.inr h
  simp only [mlSelect]
  cases hscan : mlScan (mlHandleCurrent qc ps cur ready
      (mlEnqueueArrivals qc ps cur ready qs)) ts with
  | some trip =>
    obtain ⟨h2, q3, ts2⟩ := trip
    obtain ⟨hmem_h, hsubq3, hndq3⟩ := mlScan_some_facts _ ts h2 q3 ts2 hscan
    dsimp only
    refine ⟨?_, ?_, ?_, ?_⟩
    · intro j hj
      have hj2 : h2 = j := by simpa using hj
      subst hj2
      exact htrans h2 hmem_h
    · exact (hndq3 hnd2).1
    · intro x hx
      exact htrans x (hsubq3 x hx)
    · intro j hj
      have hj2 : h2 = j := by simpa using hj
      subst hj2
      exact (hndq3 hnd2).2
  | none =>
    have hflat0 : flatML (mlHandleCurrent qc ps cur ready
        (mlEnqueueArrivals qc ps cur ready qs)) = [] := mlScan_none_flat _ ts hscan
    by_cases hre : ready.isEmpty = true
    · rw [if_neg (by simp [hre])]
      refine ⟨?_, ?_, ?_, ?_⟩
      · intro j hj
        exact absurd hj (by simp)
      · rw [hflat0]
        exact List.nodup_nil
      · intro x hx
        rw [hflat0] at hx
        exact absurd hx (List.not_mem_nil x)
      · intro j hj
        exact absurd hj (by simp)
    · rw [if_pos (by simp [Bool.not_eq_true] at hre ⊢; exact hre)]
      refine ⟨?_, ?_, ?_, ?_⟩
      · intro j hj
        exact Or.inr (pyMinBy_mem _ ready j hj)
      · rw [hflat0]
        exact List.nodup_nil
      · intro x hx
        rw [hflat0] at hx
        exact absurd hx (List.not_mem_nil x)
      · intro j _
        rw [hflat0]
        exact List.not_mem_nil j

lemma flatML_of_all_empty : ∀ qs : List MLQueue,
    (∀ q ∈ qs, q.queue = []) → flatML qs = [] := by
  intro qs
  induction qs with
  | nil => intro _; rfl
  | cons q rest ih =>
    intro h
    rw [flatML_cons, h q (List.mem_cons.mpr (Or.inl rfl)),
      ih (fun x hx => h x (List.mem_cons.mpr (Or.inr hx)))]
    rfl

lemma flatML_mkQueues (qc : Nat) : flatML (mkQueues qc) = [] := by
  apply flatML_of_all_empty
  intro q hq
  unfold mkQueues at hq
  rcases List.mem_cons.mp hq with h | h
  · rw [h]
  · rcases List.mem_append.mp h with h2 | h2
    · rw [List.eq_of_mem_replicate h2]
    · rw [List.mem_singleton] at h2
      rw [h2]

lemma ml_inv_step (qc : Nat) (u : Option Nat) (s : Engine (List MLQueue))
    (h : MLInv s) : MLInv (step (mlSelect qc) u s) := by
  rcases step_cases_full (mlSelect qc) u s with ⟨hp, hst, htime⟩ |
    ⟨ps2, ts2, hsel_eq, hp, hst, htime⟩ |
    ⟨j, ps2, ts2, t1, d2, ps1, hsel_eq, hps1, hp, hst, htime⟩
  · refine ⟨hst ▸ h.1, ?_⟩
    intro i hi
    rw [hst] at hi
    have h2 := (mem_readyIdx_iff s i).mp (h.2 i hi)
    apply (mem_readyIdx_iff _ i).mpr
    rw [hp]
    exact ⟨h2.1, Nat.le_trans h2.2.1 htime, h2.2.2⟩
  · have hfacts := mlSelect_facts qc s.pstate s.current_process s.processes
      (readyIdx s) s.time_slice h.1
    have hqp : (mlSelect qc s.pstate s.current_process s.processes (readyIdx s)
        s.time_slice).2.1 = ps2 := by rw [hsel_eq]
    refine ⟨?_, ?_⟩
    · rw [hst, ← hqp]
      exact hfacts.2.1
    · intro i hi
      rw [hst, ← hqp] at hi
      have hir : i ∈ readyIdx s := by
        rcases hfacts.2.2.1 i hi with h2 | h2
        · exact h.2 i h2
        · exact h2
      have h2 := (mem_readyIdx_iff s i).mp hir
      apply (mem_readyIdx_iff _ i).mpr
      rw [hp, htime]
      exact h2
  · have hfacts := mlSelect_facts qc s.pstate s.current_process s.processes
      (readyIdx s) s.time_slice h.1
    have hqp : (mlSelect qc s.pstate s.current_process s.processes (readyIdx s)
        s.time_slice).2.1 = ps2 := by rw [hsel_eq]
    have hsel1 : (mlSelect qc s.pstate s.current_process s.processes (readyIdx s)
        s.time_slice).1 = some j := by rw [hsel_eq]
    have hnodup : (flatML ps2).Nodup := hqp ▸ hfacts.2.1
    have hmem2 : ∀ x ∈ flatML ps2, x ∈ readyIdx s := by
      intro x hx
      rcases hfacts.2.2.1 x (hqp ▸ hx) with h2 | h2
      · exact h.2 x h2
      · exact h2
    have hjnot : j ∉ flatML ps2 := hqp ▸ hfacts.2.2.2 j hsel1
    refine ⟨hst ▸ hnodup, ?_⟩
    intro i hi
    rw [hst] at hi
    have hij : i ≠ j := fun he => hjnot (he ▸ hi)
    have h2 := (mem_readyIdx_iff s i).mp (hmem2 i hi)
    have hchain : arrState (s.processes.getD i procD)
        ((step (mlSelect qc) u s).processes.getD i procD) := by
      rw [hp]
      have ha1 : arrState (s.processes.getD i procD) (ps1.getD i procD) := by
        rcases hps1 with h3 | h3
        · rw [h3]
          exact arrState_refl _
        · rw [h3]
          exact applyWaits_arrState _ _ _ _ i
      have ha2 : arrState (s.processes.getD i procD)
          ((ps1.set j (((ps1.getD j procD).execute t1 ts2).1)).getD i procD) := by
        rcases getD_set_cases ps1 j i (((ps1.getD j procD).execute t1 ts2).1) with
          hcc | ⟨_, hii⟩
        · rw [hcc]
          exact ha1
        · exact absurd hii hij
      exact arrState_trans _ _ _ ha2 (applyWaits_arrState _ _ _ _ i)
    apply (mem_readyIdx_iff _ i).mpr
    refine ⟨?_, ?_, ?_⟩
    · rw [hp, applyWaits_length, List.length_set]
      rcases hps1 with h3 | h3
      · rw [h3]
        exact h2.1
      · rw [h3, applyWaits_length]
        exact h2.1
    · rw [hchain.1]
      exact Nat.le_trans h2.2.1 htime
    · rw [hchain.2]
      exact h2.2.2

lemma ml_run_sound (qc : Nat) (u : Option Nat) (w : List ProcSpec)
    (ov slice0 : Nat) :
    ∀ m, SelSoundAt (mlSelect qc)
      (runSteps (mlSelect qc) u (mkEngine w ov slice0 (mkQueues qc)) m) := by
  have hinv : ∀ m, MLInv (runSteps (mlSelect qc) u
      (mkEngine w ov slice0 (mkQueues qc)) m) := by
    apply runSteps_inv
    · constructor
      · rw [show (mkEngine w ov slice0 (mkQueues qc)).pstate = mkQueues qc from rfl,
          flatML_mkQueues]
        exact List.nodup_nil
      · intro i hi
        rw [show (mkEngine w ov slice0 (mkQueues qc)).pstate = mkQueues qc from rfl,
          flatML_mkQueues] at hi
        exact absurd hi (List.not_mem_nil i)
    · exact fun s hs => ml_inv_step qc u s hs
  intro m j hj
  rcases (mlSelect_facts qc _ _ _ _ _ (hinv m).1).1 j hj with h2 | h2
  · exact (hinv m).2 j h2
  · exact h2

/-- C1: the claim says waiting_time plus the summed execution durations
equals the turnaround time for every completed process.  The code
refutes this: Process.wait only accrues in states READY or WAITING, but
under the engine a process is NEW before its first dispatch and stays
RUNNING when preempted, so waiting_time stays 0.  Evaluating the FCFS
run of the concrete spec scenario: process P2 completes with
waiting_time 0, execution durations summing to 3, and turnaround 7,
and 0 + 3 is not 7. -/
theorem C1_waiting_sum_eval :
    fcfsRun3.completed_processes = [0, 1, 2] ∧
    (fcfsRun3.processes.getD 1 procD).waiting_time = 0 ∧
    (fcfsRun3.processes.getD 1 procD).get_turnaround_time = some 7 ∧
    execDurations (fcfsRun3.processes.getD 1 procD) = 3 ∧
    ((0 : Int) + 3 ≠ 7) := by
  decide

/-- C2: the claim pins the FCFS execution log as
[(P1,0,5),(P2,5,8),(P3,8,9)] with waiting times P1 0, P2 4, P3 6.  The
code logs one entry per one-tick time slice (the base scheduler always
executes with time_slice 1 under FCFS), producing nine entries whose
coalesced spans match the claimed ones, and every waiting_time is 0
because Process.wait never fires (the wait-state gate bug of C1); the
values 4 and 6 show up as response times instead. -/
theorem C2_fcfs_scenario_eval :
    fcfsRun3.execution_log =
      [(LogSubject.proc 1, 0, 1), (LogSubject.proc 1, 1, 2), (LogSubject.proc 1, 2, 3),
       (LogSubject.proc 1, 3, 4), (LogSubject.proc 1, 4, 5), (LogSubject.proc 2, 5, 6),
       (LogSubject.proc 2, 6, 7), (LogSubject.proc 2, 7, 8), (LogSubject.proc 3, 8, 9)] ∧
    fcfsRun3.execution_log ≠
      [(LogSubject.proc 1, 0, 5), (LogSubject.proc 2, 5, 8), (LogSubject.proc 3, 8, 9)] ∧
    (fcfsRun3.processes.getD 0 procD).waiting_time = 0 ∧
    (fcfsRun3.processes.getD 1 procD).waiting_time = 0 ∧
    (fcfsRun3.processes.getD 2 procD).waiting_time = 0 ∧
    ¬ ((fcfsRun3.processes.getD 1 procD).waiting_time = 4 ∧
       (fcfsRun3.processes.getD 2 procD).waiting_time = 6) ∧
    (fcfsRun3.processes.getD 1 procD).response_time = some 4 ∧
    (fcfsRun3.processes.getD 2 procD).response_time = some 6 := by
  decide

/-- C3: on every run of the engine, for any policy and any workload,
the execution log entries (process, IDLE and CS alike) tile the
interval from 0 to the final clock: each entry starts where the
previous one ended, durations are non-negative, and the union of the
spans is exactly [0, final clock) with no gaps. -/
theorem C3_log_contiguous (σ : Type) (select : Select σ) (u : Option Nat)
    (w : List ProcSpec) (ov slice0 : Nat) (p0 : σ) (fuel : Nat) :
    logChain 0 (runSteps select u (mkEngine w ov slice0 p0) fuel).execution_log
      (runSteps select u (mkEngine w ov slice0 p0) fuel).current_time := by
  induction fuel with
  | zero => exact rfl
  | succ n ih => exact step_chain select u _ ih


/-- C5 counterexample: the claim says remaining ties break by the LOWER
pid, but the Python max with key (priority, -arrival, pid) prefers the
strictly greater key tuple, hence the HIGHER pid: on two processes tied
on priority and arrival with pids 1 and 2, the selection returns the
one with pid 2. -/
theorem C5_tiebreak_counterexample :
    (prioritySelect false () none c5ps [0, 1] 1).1 = some 1 ∧
    (c5ps.getD 0 procD).priority = (c5ps.getD 1 procD).priority ∧
    (c5ps.getD 0 procD).arrival_time = (c5ps.getD 1 procD).arrival_time ∧
    (c5ps.getD 0 procD).pid < (c5ps.getD 1 procD).pid := by
  decide

/-- C5 amended: when no previously-running process continues, the
non-preemptive Priority selection over a non-empty ready set returns a
process maximizing the key (priority, -arrival_time, pid): highest
priority value, ties by earliest arrival, remaining ties by the HIGHER
pid (and with distinct pids the maximizer is strict). -/
theorem C5_priority_selection (preemptive : Bool) (cur : Option Nat)
    (ps : List Process) (ready : List Nat) (ts : Nat) (hne : ready ≠ [])
    (hnc : ∀ c, cur = some c → preemptive = true ∨ c ∉ ready ∨
      (ps.getD c procD).is_terminated = true) :
    ∃ m, (prioritySelect preemptive () cur ps ready ts).1 = some m ∧ m ∈ ready ∧
      (∀ j ∈ ready, ¬ key3LtP (prioKey (ps.getD m procD)) (prioKey (ps.getD j procD))) ∧
      ((∀ i1 ∈ ready, ∀ i2 ∈ ready,
          (ps.getD i1 procD).pid = (ps.getD i2 procD).pid → i1 = i2) →
        ∀ j ∈ ready, j ≠ m →
          key3LtP (prioKey (ps.getD j procD)) (prioKey (ps.getD m procD))) := by
  obtain ⟨m, hm, hmem, hall⟩ := pyMaxBy_spec (fun i => prioKey (ps.getD i procD)) ready hne
  have hsel : (prioritySelect preemptive () cur ps ready ts).1 = some m := by
    unfold prioritySelect
    cases cur with
    | none => simpa using hm
    | some c =>
      simp only [List.getD_eq_getElem?_getD] at hm
      rcases hnc c rfl with hp | hp | hp
      · simp [hp, hm]
      · simp [hp, hm]
      · simp only [List.getD_eq_getElem?_getD] at hp
        simp [hp, hm]
  refine ⟨m, hsel, hmem, hall, ?_⟩
  intro hinj j hj hjm
  have hne2 : prioKey (ps.getD m procD) ≠ prioKey (ps.getD j procD) := by
    intro he
    apply hjm
    apply hinj j hj m hmem
    have hpid := congrArg (fun k : Int × Int × Nat => k.2.2) he
    simpa [prioKey] using hpid.symm
  exact key3LtP_of_ne (prioKey (ps.getD m procD)) (prioKey (ps.getD j procD))
    hne2 (hall j hj)

/-- C5 witness: the amended selection theorem applied to the concrete
tied workload. -/
theorem C5_priority_selection_witness :
    ∃ m, (prioritySelect false () none c5ps [0, 1] 1).1 = some m ∧ m ∈ [0, 1] ∧
      (∀ j ∈ [0, 1], ¬ key3LtP (prioKey (c5ps.getD m procD)) (prioKey (c5ps.getD j procD))) ∧
      ((∀ i1 ∈ [0, 1], ∀ i2 ∈ [0, 1],
          (c5ps.getD i1 procD).pid = (c5ps.getD i2 procD).pid → i1 = i2) →
        ∀ j ∈ [0, 1], j ≠ m →
          key3LtP (prioKey (c5ps.getD j procD)) (prioKey (c5ps.getD m procD))) :=
  C5_priority_selection false none c5ps [0, 1] 1 (by decide)
    (fun c hc => Option.noConfusion hc)

/-- C7: start_time, response_time and finish_time are write-once along
any engine run whose policy picks a member of the ready set at every
state the run actually reaches: once one of these fields holds some
value after n steps, it holds the same value after any further k
steps.  The run-level hypothesis is proved for each embedded policy:
unconditionally for FCFS and Priority (fcfs_run_sound,
priority_run_sound), and through the reachable-state queue invariants
RRInv and MLInv for Round Robin and Multilevel Queue (rr_run_sound,
ml_run_sound). -/
theorem C7_write_once (σ : Type) (select : Select σ) (u : Option Nat)
    (w : List ProcSpec) (ov slice0 : Nat) (p0 : σ)
    (hsel : ∀ m, SelSoundAt select (runSteps select u (mkEngine w ov slice0 p0) m))
    (n k i : Nat) :
    fieldsPreserved
      ((runSteps select u (mkEngine w ov slice0 p0) n).processes.getD i procD)
      ((runSteps select u (mkEngine w ov slice0 p0) (n + k)).processes.getD i procD) := by
  induction k with
  | zero => exact fieldsPreserved_refl _
  | succ m ih =>
    exact fieldsPreserved_trans _ _ _ ih
      ((step_pres select u (runSteps select u (mkEngine w ov slice0 p0) (n + m))
        (hsel (n + m))
        (runSteps_engWF select u w ov slice0 p0 hsel (n + m))).2 i)

/-- C7 witness: the write-once theorem applied to the policies the
reviewer of a Round Robin or Multilevel Queue run cares about: after
the first step of a Round Robin run start_time is some 0 and all three
fields carry to the next step, and likewise across two further steps
of a Multilevel Queue run; the run-level hypotheses are discharged by
rr_run_sound and ml_run_sound. -/
theorem C7_write_once_witness :
    ((runSteps rrSelect none (mkEngine [⟨1, "P1", 0, 5, 0⟩] 0 4 ([] : List Nat)) 1).processes.getD 0
      procD).start_time = some 0 ∧
    fieldsPreserved
      ((runSteps rrSelect none (mkEngine [⟨1, "P1", 0, 5, 0⟩] 0 4 ([] : List Nat)) 1).processes.getD 0 procD)
      ((runSteps rrSelect none (mkEngine [⟨1, "P1", 0, 5, 0⟩] 0 4 ([] : List Nat)) 2).processes.getD 0 procD) ∧
    fieldsPreserved
      ((runSteps (mlSelect 3) none (mkEngine [⟨1, "P1", 0, 5, 0⟩] 0 1 (mkQueues 3)) 1).processes.getD 0 procD)
      ((runSteps (mlSelect 3) none (mkEngine [⟨1, "P1", 0, 5, 0⟩] 0 1 (mkQueues 3)) 3).processes.getD 0 procD) :=
  ⟨by decide,
   C7_write_once (List Nat) rrSelect none [⟨1, "P1", 0, 5, 0⟩] 0 4 []
     (rr_run_sound none [⟨1, "P1", 0, 5, 0⟩] 0 4) 1 1 0,
   C7_write_once (List MLQueue) (mlSelect 3) none [⟨1, "P1", 0, 5, 0⟩] 0 1 (mkQueues 3)
     (ml_run_sound 3 none [⟨1, "P1", 0, 5, 0⟩] 0 1) 1 2 0⟩

/-- C8: two runs of the same policy on workloads that agree on pid,
arrival_time, burst_time and priority in the same order (names may
differ) produce identical execution logs, for every policy that does
not read the display name. -/
theorem C8_determinism (σ : Type) (select : Select σ) (u : Option Nat)
    (ov slice0 : Nat) (p0 : σ) (fuel : Nat) (w1 w2 : List ProcSpec)
    (hblind : ∀ (st : σ) (cur : Option Nat) (ps : List Process) (ready : List Nat)
      (ts : Nat), select st cur (ps.map eraseName) ready ts = select st cur ps ready ts)
    (hw : w1.map stripName = w2.map stripName) :
    (runSteps select u (mkEngine w1 ov slice0 p0) fuel).execution_log =
    (runSteps select u (mkEngine w2 ov slice0 p0) fuel).execution_log := by
  have h1 : ∀ w : List ProcSpec,
      (runSteps select u (mkEngine w ov slice0 p0) fuel).execution_log =
      (runSteps select u (mkEngine (w.map stripName) ov slice0 p0) fuel).execution_log := by
    intro w
    rw [← eraseE_mkEngine, runSteps_erase select u hblind]
    rfl
  rw [h1 w1, h1 w2, hw]

/-- C8 witness: FCFS runs on two one-process workloads differing only
in the display name produce the same log. -/
theorem C8_determinism_witness :
    (runSteps fcfsSelect none (mkEngine [⟨1, "Alice", 0, 2, 0⟩] 0 1 ()) 3).execution_log =
    (runSteps fcfsSelect none (mkEngine [⟨1, "Bob", 0, 2, 0⟩] 0 1 ()) 3).execution_log :=
  C8_determinism Unit fcfsSelect none 0 1 () 3 [⟨1, "Alice", 0, 2, 0⟩] [⟨1, "Bob", 0, 2, 0⟩]
    fcfsSelect_blind (by rfl)

/-- C9: a run with zero processes terminates immediately with empty
completed list, empty log and clock 0, for any policy and any fuel, and
the metrics aggregator on an empty completed list returns the all-zero
record instead of dividing by zero. -/
theorem C9_empty_workload (σ : Type) (select : Select σ) (u : Option Nat)
    (ov slice0 : Nat) (p0 : σ) (fuel total_time : Nat) (name : String) :
    (runSteps select u (mkEngine ([] : List ProcSpec) ov slice0 p0) fuel).completed_processes = [] ∧
    (runSteps select u (mkEngine ([] : List ProcSpec) ov slice0 p0) fuel).execution_log = [] ∧
    (runSteps select u (mkEngine ([] : List ProcSpec) ov slice0 p0) fuel).current_time = 0 ∧
    calculate_metrics [] total_time name =
      { scheduler := name, avg_waiting_time := 0, avg_turnaround_time := 0,
        avg_response_time := 0, throughput := 0, cpu_utilization := 0 } := by
  have hfix : ∀ n, runSteps select u (mkEngine ([] : List ProcSpec) ov slice0 p0) n =
      mkEngine ([] : List ProcSpec) ov slice0 p0 := by
    intro n
    induction n with
    | zero => rfl
    | succ k ih =>
      show step select u (runSteps select u (mkEngine ([] : List ProcSpec) ov slice0 p0) k) = _
      rw [ih]
      simp only [step]
      rw [if_neg]
      simp [mkEngine]
  rw [hfix fuel]
  exact ⟨rfl, rfl, rfl, rfl⟩

/-- C10: Process.wait leaves waiting_time unchanged on a NEW process,
and consequently along any engine run a process still in state NEW (in
particular one that has arrived but has never been dispatched) has
waiting_time 0 while others run. -/
theorem C10_wait_new_noop :
    (∀ (p : Process) (d : Nat), p.state = PState.NEW →
      (p.wait d).waiting_time = p.waiting_time) ∧
    (∀ (σ : Type) (select : Select σ) (u : Option Nat) (w : List ProcSpec)
      (ov slice0 : Nat) (p0 : σ) (fuel i : Nat),
      ((runSteps select u (mkEngine w ov slice0 p0) fuel).processes.getD i procD).state =
        PState.NEW →
      ((runSteps select u (mkEngine w ov slice0 p0) fuel).processes.getD i
        procD).waiting_time = 0) := by
  constructor
  · intro p d h
    rw [wait_new_fix p d h]
  · intro σ select u w ov slice0 p0 fuel i h
    exact runSteps_Qnew select u w ov slice0 p0 fuel i h

/-- C10 witness: wait on a fresh NEW process keeps waiting_time, and in
a two-process FCFS run the late arriver still has waiting_time 0 after
the first step. -/
theorem C10_wait_new_noop_witness :
    ((mkProcess 1 "W" 0 3 0).wait 5).waiting_time = (mkProcess 1 "W" 0 3 0).waiting_time ∧
    ((runSteps fcfsSelect none
      (mkEngine [⟨1, "P1", 0, 2, 0⟩, ⟨2, "P2", 1, 2, 0⟩] 0 1 ()) 1).processes.getD 1
        procD).waiting_time = 0 :=
  ⟨C10_wait_new_noop.1 (mkProcess 1 "W" 0 3 0) 5 (by rfl),
   C10_wait_new_noop.2 Unit fcfsSelect none [⟨1, "P1", 0, 2, 0⟩, ⟨2, "P2", 1, 2, 0⟩]
     0 1 () 1 1 (by decide)⟩

/-- C4 counterexample: the claim grants a process selected from the
FCFS tier its whole remaining burst, but the FCFS branch of the scan
never assigns time_slice, so the engine keeps its current slice (1
initially): the single process, mapped to the FCFS tier with 5 of
burst remaining, executes for just 1 tick on first dispatch. -/
theorem C4_fcfs_tier_counterexample :
    get_queue_for_process 3 (mlEng1.processes.getD 0 procD) = 2 ∧
    ((mkQueues 3).getD 2 mlqD).alg = MLAlg.fcfs ∧
    (mlEng1.processes.getD 0 procD).remaining_time = 5 ∧
    (runSteps (mlSelect 3) none mlEng1 1).execution_log = [(LogSubject.proc 1, 0, 1)] ∧
    (runSteps (mlSelect 3) none mlEng1 1).time_slice = 1 ∧
    (1 : Nat) ≠ 5 := by
  decide

/-- C4 amended: after the arrival and current-process queue updates,
the Multilevel Queue selection returns the head of the first non-empty
tier scanning from index 0 upward; the granted time slice is the
configured time_quantum for an RR tier and the current time_slice of
the engine, left unchanged, for the FCFS tier (not the whole remaining
burst). -/
theorem C4_mlq_selection (qc : Nat) (queues : List MLQueue) (cur : Option Nat)
    (ps : List Process) (ready : List Nat) (ts : Nat) (qs1 qs2 : List MLQueue)
    (alg : MLAlg) (h : Nat) (t : List Nat)
    (hsplit : mlHandleCurrent qc ps cur ready (mlEnqueueArrivals qc ps cur ready queues) =
      qs1 ++ { alg := alg, queue := h :: t } :: qs2)
    (hempty : ∀ x ∈ qs1, x.queue = []) :
    mlSelect qc queues cur ps ready ts =
      (some h, qs1 ++ { alg := alg, queue := t } :: qs2,
        match alg with | MLAlg.rr tq => tq | MLAlg.fcfs => ts) := by
  have hscan := mlScan_spec qs1 { alg := alg, queue := h :: t } qs2 h t ts hempty rfl
  simp only [mlSelect, hsplit, hscan]
  cases alg <;> rfl


/-- C4 witness: the amended selection theorem applied to a concrete
tier list whose first tier is non-empty. -/
theorem C4_mlq_selection_witness :
    mlSelect 3 c4queues none [] ([] : List Nat) 7 =
      (some 4, [{ alg := MLAlg.rr 2, queue := [] }, { alg := MLAlg.rr 4, queue := [] },
        { alg := MLAlg.fcfs, queue := [] }], 2) :=
  C4_mlq_selection 3 c4queues none [] [] 7 []
    [{ alg := MLAlg.rr 4, queue := [] }, { alg := MLAlg.fcfs, queue := [] }]
    (MLAlg.rr 2) 4 [] (by rfl) (fun x hx => absurd hx (List.not_mem_nil x))

/-- C6 counterexample: the claim appends new arrivals in arrival
order, but the code appends them in workload list order.  At the
second call B (index 1, arrival 3) and C (index 2, arrival 2) are both
newly ready; the code appends B before C, so B is dispatched at time 4
while C (which arrived earlier) stays queued behind the preempted A:
the second log entry is for pid 2 and the queue is [C, A]. -/
theorem C6_arrival_order_counterexample :
    (runSteps rrSelect none rrEng 2).execution_log =
      [(LogSubject.proc 1, 0, 4), (LogSubject.proc 2, 4, 6)] ∧
    (runSteps rrSelect none rrEng 2).pstate = [2, 0] ∧
    ((runSteps rrSelect none rrEng 1).processes.getD 1 procD).arrival_time = 3 ∧
    ((runSteps rrSelect none rrEng 1).processes.getD 2 procD).arrival_time = 2 ∧
    ((2 : Nat) < 3) := by
  decide

/-- C6 amended: across one Round Robin selection with a duplicate-free
queue and ready list, (a) new arrivals not deduplicated away are
appended at the tail in ready-list (workload) order, (b) a still-ready
unfinished current process ends up at the tail and nowhere else, (c)
the queue after the call is duplicate-free, and (d) the dispatched
process is no longer in the queue. -/
theorem C6_rr_queue_invariant (ps : List Process) (queue ready : List Nat)
    (cur : Option Nat) (ts : Nat) (hq : queue.Nodup) (hr : ready.Nodup) :
    rrEnqueue ps queue ready = queue ++ ready.filter (fun i =>
      ! decide ((ps.getD i procD).pid ∈ queue.map (fun k => (ps.getD k procD).pid)) &&
      ! decide (i ∈ queue)) ∧
    (∀ c, cur = some c → c ∈ ready → (ps.getD c procD).is_terminated = false →
      ∃ pre, rrRequeue ps cur ready (rrEnqueue ps queue ready) = pre ++ [c] ∧ c ∉ pre) ∧
    (rrSelect queue cur ps ready ts).2.1.Nodup ∧
    (∀ j, (rrSelect queue cur ps ready ts).1 = some j →
      j ∉ (rrSelect queue cur ps ready ts).2.1) := by
  have hq1n : (rrEnqueue ps queue ready).Nodup := rrEnqueue_nodup ps queue ready hq hr
  have hq2n : (rrRequeue ps cur ready (rrEnqueue ps queue ready)).Nodup :=
    rrRequeue_nodup ps cur ready (rrEnqueue ps queue ready) hq1n
  have hq3 : rrFallback ps ready (rrRequeue ps cur ready (rrEnqueue ps queue ready)) =
      rrRequeue ps cur ready (rrEnqueue ps queue ready) := by
    unfold rrFallback
    by_cases hready : ready = []
    · rw [if_neg]
      simp [hready]
    · rw [if_neg]
      have hne := rrRequeue_ne_nil ps cur ready (rrEnqueue ps queue ready)
        (rrEnqueue_ne_nil ps queue ready hr hready)
      simp [List.isEmpty_iff, hne]
  have hsel_eq : rrSelect queue cur ps ready ts =
      match rrRequeue ps cur ready (rrEnqueue ps queue ready) with
      | [] => (none, [], ts)
      | h :: t2 => (some h, t2, ts) := by
    simp only [rrSelect]
    rw [hq3]
  refine ⟨rrEnqueue_eq ps queue ready hr, ?_, ?_, ?_⟩
  · intro c hcur hcr hterm
    unfold rrRequeue
    rw [hcur]
    dsimp only
    rw [if_pos (by rw [Bool.and_eq_true, hterm]; exact ⟨decide_eq_true hcr, rfl⟩)]
    exact ⟨(rrEnqueue ps queue ready).erase c, rfl,
      fun hmem => ((List.Nodup.mem_erase_iff hq1n).mp hmem).1 rfl⟩
  · rw [hsel_eq]
    cases hq2e : rrRequeue ps cur ready (rrEnqueue ps queue ready) with
    | nil => exact List.nodup_nil
    | cons h t2 =>
      rw [hq2e] at hq2n
      exact (List.nodup_cons.mp hq2n).2
  · intro j hj
    rw [hsel_eq] at hj ⊢
    cases hq2e : rrRequeue ps cur ready (rrEnqueue ps queue ready) with
    | nil =>
      rw [hq2e] at hj
      exact absurd hj (by simp)
    | cons h t2 =>
      rw [hq2e] at hj hq2n
      have hjh : j = h := by
        simp at hj
        omega
      subst hjh
      exact (List.nodup_cons.mp hq2n).1

/-- C6 witness: the amended queue invariant applied to a concrete
state: empty queue, two ready processes, no current process. -/
theorem C6_rr_queue_invariant_witness :
    rrEnqueue c5ps [] [0, 1] = [] ++ [0, 1].filter (fun i =>
      ! decide ((c5ps.getD i procD).pid ∈
        ([] : List Nat).map (fun k => (c5ps.getD k procD).pid)) &&
      ! decide (i ∈ ([] : List Nat))) ∧
    (∀ c, (none : Option Nat) = some c → c ∈ [0, 1] →
      (c5ps.getD c procD).is_terminated = false →
      ∃ pre, rrRequeue c5ps none [0, 1] (rrEnqueue c5ps [] [0, 1]) = pre ++ [c] ∧ c ∉ pre) ∧
    (rrSelect [] none c5ps [0, 1] 4).2.1.Nodup ∧
    (∀ j, (rrSelect [] none c5ps [0, 1] 4).1 = some j →
      j ∉ (rrSelect [] none c5ps [0, 1] 4).2.1) :=
  C6_rr_queue_invariant c5ps [] [0, 1] none 4 (by decide) (by decide)

end OSSim
